import Mathlib

/-!
Verification of the QSP image lock/unlock pipeline core.

Shallow embedding of the algorithmic core of the repository:
CRT threshold secret sharing over image pixels (math_utils.py,
splitter.py, reconstructor.py, moduli_gen.py), the Arnold cat-map
scrambler (scrambler.py), and the lattice threshold signature
protocol (signer.py, utils.py, ntt.py).  Machine integers are
modelled as Nat/Int (Python整数 are unbounded); Python `%` on a
positive modulus is Nat.mod / Int.emod; fallible code returns
Option or Except.
-/

namespace QSP

/-! ## math_utils.py : extended_gcd, mod_inverse, get_product -/

/-- Embedding of `extended_gcd(a, b)` from src/secret_sharing/math_utils.py:
returns `(g, x, y)` with `a*x + b*y = g`.  The Python code recurses as
`g, y, x = extended_gcd(b % a, a); return g, x - (b // a) * y, y`. -/
def extended_gcd : ℕ → ℕ → ℕ × ℤ × ℤ
  | 0, b => (b, 0, 1)
  | (a+1), b =>
      ((extended_gcd (b % (a+1)) (a+1)).1,
       (extended_gcd (b % (a+1)) (a+1)).2.2
         - ((b / (a+1) : ℕ) : ℤ) * (extended_gcd (b % (a+1)) (a+1)).2.1,
       (extended_gcd (b % (a+1)) (a+1)).2.1)
termination_by a _ => a
decreasing_by all_goals exact Nat.mod_lt _ (Nat.succ_pos a)

theorem extended_gcd_fst (a b : ℕ) : (extended_gcd a b).1 = Nat.gcd a b := by
  induction a using Nat.strong_induction_on generalizing b with
  | _ a ih =>
    match a with
    | 0 => simp [extended_gcd]
    | (a+1) =>
      rw [extended_gcd]
      rw [ih (b % (a+1)) (Nat.mod_lt _ (Nat.succ_pos a)) (a+1)]
      exact (Nat.gcd_succ a b).symm

theorem extended_gcd_bezout (a b : ℕ) :
    (a : ℤ) * (extended_gcd a b).2.1 + (b : ℤ) * (extended_gcd a b).2.2
      = ((extended_gcd a b).1 : ℤ) := by
  induction a using Nat.strong_induction_on generalizing b with
  | _ a ih =>
    match a with
    | 0 => simp [extended_gcd]
    | (a+1) =>
      rw [extended_gcd]
      have h := ih (b % (a+1)) (Nat.mod_lt _ (Nat.succ_pos a)) (a+1)
      have hdm : ((a+1 : ℕ) : ℤ) * ((b / (a+1) : ℕ) : ℤ) + ((b % (a+1) : ℕ) : ℤ)
          = (b : ℤ) := by
        exact_mod_cast Nat.div_add_mod b (a+1)
      linear_combination h - (extended_gcd (b % (a+1)) (a+1)).2.1 * hdm

/-- Embedding of `mod_inverse(a, m)`: `none` models the raised exception when
`gcd(a, m) != 1`, otherwise `x % m` for the Bezout coefficient `x`. -/
def mod_inverse (a m : ℕ) : Option ℤ :=
  if (extended_gcd a m).1 ≠ 1 then none
  else some ((extended_gcd a m).2.1 % (m : ℤ))

theorem mod_inverse_eq_some {a m : ℕ} (h : Nat.gcd a m = 1) :
    mod_inverse a m = some ((extended_gcd a m).2.1 % (m : ℤ)) := by
  unfold mod_inverse
  rw [extended_gcd_fst, h]
  simp

theorem mod_inverse_spec {a m : ℕ} {x : ℤ}
    (h : mod_inverse a m = some x) : (a : ℤ) * x ≡ 1 [ZMOD m] := by
  unfold mod_inverse at h
  by_cases hg : (extended_gcd a m).1 ≠ 1
  · simp [hg] at h
  · push_neg at hg
    simp only [hg, ne_eq, not_true_eq_false, if_false, Option.some.injEq] at h
    subst h
    have hb := extended_gcd_bezout a m
    rw [hg] at hb
    push_cast at hb
    have h1 : (a : ℤ) * ((extended_gcd a m).2.1 % (m : ℤ))
        ≡ (a : ℤ) * (extended_gcd a m).2.1 [ZMOD m] :=
      Int.ModEq.mul_left _ (Int.emod_emod_of_dvd _ dvd_rfl)
    have h2 : (a : ℤ) * (extended_gcd a m).2.1 ≡ 1 [ZMOD m] := by
      have : (a : ℤ) * (extended_gcd a m).2.1
          = 1 - (m : ℤ) * (extended_gcd a m).2.2 := by linarith
      rw [this]
      have : (1 : ℤ) - (m : ℤ) * (extended_gcd a m).2.2 ≡ 1 - 0 [ZMOD m] :=
        Int.ModEq.sub_left 1 (Int.modEq_zero_iff_dvd.mpr ⟨_, rfl⟩)
      simpa using this
    exact h1.trans h2

/-- Embedding of `get_product(numbers)` (reduce with initial value 1). -/
def get_product (l : List ℕ) : ℕ := l.foldl (· * ·) 1

theorem get_product_eq_prod (l : List ℕ) : get_product l = l.prod := by
  rw [get_product, ← List.prod_eq_foldl]

/-! ## math_utils.py : batch_crt_solve -/

/-- The precomputed CRT weight for modulus `m`: `M_i * inv_i` where
`M_i = M_prime // moduli[i]` and `inv_i = mod_inverse(M_i, moduli[i])`
(`none` when the inverse does not exist). -/
def crt_weight (M m : ℕ) : Option ℤ :=
  (mod_inverse (M / m) m).map (fun inv => ((M / m : ℕ) : ℤ) * inv)

/-- The weight-precomputation loop of `batch_crt_solve` (`for i in range(t)`):
`none` models the exception raised by `mod_inverse`. -/
def compute_weights (M : ℕ) : List ℕ → Option (List ℤ)
  | [] => some []
  | m :: rest => do
      let w ← crt_weight M m
      let ws ← compute_weights M rest
      pure (w :: ws)

/-- Embedding of `batch_crt_solve(shares, moduli, m0)`: total modulus product,
precomputed weights, vectorized big-integer accumulation, `Y = sum % M_prime`,
`S = Y % m0`, and the final `astype(np.uint8)` cast (`% 256` on the
non-negative residue). -/
def batch_crt_solve (shares : List (List ℕ)) (moduli : List ℕ) (m0 : ℕ) :
    Option (List ℕ) :=
  match compute_weights (get_product moduli) moduli with
  | none => none
  | some weights =>
      some ((((List.zip shares weights).foldl
        (fun acc p => List.zipWith (· + ·) acc (p.1.map (fun v : ℕ => (v : ℤ) * p.2)))
        (List.replicate (shares.headD []).length 0))).map
          (fun s => ((s % ((get_product moduli : ℕ) : ℤ)) % ((m0 : ℕ) : ℤ)).toNat % 256))

/-- Embedding of the per-modulus projection in `ImageCRTSplitter.split`:
`shadow = flat_pixels % m`. -/
def split_shadow (pixels : List ℕ) (m : ℕ) : List ℕ :=
  pixels.map (fun v => v % m)

/-- Embedding of `ImageCRTSplitter._validate_moduli` for an (n, t) scheme:
n moduli, pairwise coprime, each above the pixel bound 255. -/
def validate_moduli (n : ℕ) (moduli : List ℕ) : Prop :=
  moduli.length = n ∧ moduli.Pairwise Nat.Coprime ∧ ∀ m ∈ moduli, 255 < m

/-- The Asmuth-Bloom acceptance bound on a moduli batch (with the slices as
mathematically intended: product of the t smallest strictly exceeds 255 times
the product of the t-1 largest). -/
def asmuth_bound_ok (moduli : List ℕ) (t : ℕ) : Prop :=
  255 * ((moduli.insertionSort (· ≤ ·)).drop (moduli.length - (t - 1))).prod
    < ((moduli.insertionSort (· ≤ ·)).take t).prod

/-! ### CRT correctness toolkit -/

theorem coprime_list_prod {k : ℕ} {l : List ℕ} (h : ∀ x ∈ l, Nat.Coprime k x) :
    Nat.Coprime k l.prod := by
  induction l with
  | nil => simp [Nat.coprime_one_right]
  | cons a t ih =>
      rw [List.prod_cons]
      exact Nat.Coprime.mul_right (h a (List.mem_cons_self a t))
        (ih (fun x hx => h x (List.mem_cons_of_mem a hx)))

theorem prod_div_mem_coprime {sel : List ℕ} {m : ℕ}
    (hp : sel.Pairwise Nat.Coprime) (hpos : ∀ x ∈ sel, 0 < x) (hm : m ∈ sel) :
    Nat.Coprime (sel.prod / m) m := by
  obtain ⟨pre, post, rfl⟩ := List.append_of_mem hm
  have hm0 : 0 < m := hpos m hm
  have hprod : (pre ++ m :: post).prod = m * (pre.prod * post.prod) := by
    rw [List.prod_append, List.prod_cons]; ring
  rw [hprod, Nat.mul_div_cancel_left _ hm0]
  rw [List.pairwise_append] at hp
  obtain ⟨hpre, hpost, hcross⟩ := hp
  have h1 : ∀ a ∈ pre, Nat.Coprime a m := fun a ha =>
    hcross a ha m (List.mem_cons_self m post)
  have h2 : ∀ b ∈ post, Nat.Coprime m b := fun b hb =>
    (List.pairwise_cons.mp hpost).1 b hb
  exact Nat.Coprime.mul
    ((coprime_list_prod (fun x hx => (h1 x hx).symm)).symm)
    ((coprime_list_prod h2).symm)

/-- The weighted partial sum computed by the vectorized accumulation,
restricted to one pixel of value `v`. -/
def crt_pixel_sum (sel : List ℕ) (ws : List ℤ) (v : ℕ) : ℤ :=
  ((sel.zip ws).map (fun p => ((v % p.1 : ℕ) : ℤ) * p.2)).sum

theorem crt_pixel_sum_nil (ws : List ℤ) (v : ℕ) : crt_pixel_sum [] ws v = 0 := by
  simp [crt_pixel_sum]

theorem crt_pixel_sum_cons (m : ℕ) (sel : List ℕ) (w : ℤ) (ws : List ℤ) (v : ℕ) :
    crt_pixel_sum (m :: sel) (w :: ws) v
      = ((v % m : ℕ) : ℤ) * w + crt_pixel_sum sel ws v := by
  simp [crt_pixel_sum]

theorem crt_weight_eq {M m : ℕ} {w : ℤ} (hmw : crt_weight M m = some w) :
    ∃ inv, mod_inverse (M / m) m = some inv ∧ w = ((M / m : ℕ) : ℤ) * inv := by
  unfold crt_weight at hmw
  cases hinv : mod_inverse (M / m) m with
  | none => rw [hinv] at hmw; simp at hmw
  | some inv =>
      rw [hinv] at hmw
      simp at hmw
      exact ⟨inv, rfl, hmw.symm⟩

theorem crt_weight_dvd {M m d : ℕ} {w : ℤ} (hmw : crt_weight M m = some w)
    (hd : d ∣ M / m) : (d : ℤ) ∣ w := by
  obtain ⟨inv, _, rfl⟩ := crt_weight_eq hmw
  exact Dvd.dvd.mul_right (Int.natCast_dvd_natCast.mpr hd) inv

theorem crt_pixel_sum_modeq_zero {M : ℕ} {d : ℕ} {sel : List ℕ} {ws : List ℤ}
    (hw : List.Forall₂ (fun m w => crt_weight M m = some w) sel ws)
    (hdvd : ∀ m ∈ sel, d ∣ M / m) (v : ℕ) :
    crt_pixel_sum sel ws v ≡ 0 [ZMOD (d : ℤ)] := by
  induction hw with
  | nil => rw [crt_pixel_sum_nil]
  | @cons m w sel' ws' hmw _ ih =>
      rw [crt_pixel_sum_cons]
      have h0 : ((v % m : ℕ) : ℤ) * w ≡ 0 [ZMOD (d : ℤ)] := by
        refine Int.modEq_zero_iff_dvd.mpr ?_
        exact Dvd.dvd.mul_left (crt_weight_dvd hmw (hdvd m (List.mem_cons_self m sel'))) _
      have h1 := ih (fun m' hm' => hdvd m' (List.mem_cons_of_mem m hm'))
      simpa using h0.add h1

theorem crt_pixel_sum_modeq {M : ℕ} {sel : List ℕ} {ws : List ℤ}
    (hp : sel.Pairwise Nat.Coprime) (hpos : ∀ m ∈ sel, 0 < m)
    (hdvd : sel.prod ∣ M)
    (hw : List.Forall₂ (fun m w => crt_weight M m = some w) sel ws) (v : ℕ) :
    crt_pixel_sum sel ws v ≡ (v : ℤ) [ZMOD (sel.prod : ℤ)] := by
  induction hw with
  | nil => exact Int.modEq_one
  | @cons m w sel' ws' hmw htail ih =>
      have hm0 : 0 < m := hpos m (List.mem_cons_self m sel')
      have hpos' : ∀ x ∈ sel', 0 < x := fun x hx => hpos x (List.mem_cons_of_mem m hx)
      have hp' : sel'.Pairwise Nat.Coprime := (List.pairwise_cons.mp hp).2
      have hcop : ∀ x ∈ sel', Nat.Coprime m x := (List.pairwise_cons.mp hp).1
      have hcons : (m :: sel').prod = m * sel'.prod := List.prod_cons
      have hmM : m ∣ M := dvd_trans (List.dvd_prod (List.mem_cons_self m sel')) hdvd
      have hdvd' : sel'.prod ∣ M :=
        dvd_trans (by rw [hcons] at hdvd ⊢; exact dvd_mul_left _ _) hdvd
      rw [crt_pixel_sum_cons]
      have hmodm : ((v % m : ℕ) : ℤ) * w + crt_pixel_sum sel' ws' v
          ≡ (v : ℤ) [ZMOD (m : ℤ)] := by
        obtain ⟨inv, hinv, hweq⟩ := crt_weight_eq hmw
        have hone : ((M / m : ℕ) : ℤ) * inv ≡ 1 [ZMOD (m : ℤ)] := mod_inverse_spec hinv
        have hterm : ((v % m : ℕ) : ℤ) * w ≡ (v : ℤ) [ZMOD (m : ℤ)] := by
          rw [hweq]
          calc ((v % m : ℕ) : ℤ) * (((M / m : ℕ) : ℤ) * inv)
              ≡ ((v % m : ℕ) : ℤ) * 1 [ZMOD (m : ℤ)] := Int.ModEq.mul_left _ hone
            _ = ((v % m : ℕ) : ℤ) := by ring
            _ ≡ (v : ℤ) [ZMOD (m : ℤ)] := by
                have hc : ((v % m : ℕ) : ℤ) = (v : ℤ) % (m : ℤ) := by push_cast; rfl
                rw [hc]
                exact Int.emod_emod_of_dvd _ dvd_rfl
        have htail0 : crt_pixel_sum sel' ws' v ≡ 0 [ZMOD (m : ℤ)] := by
          apply crt_pixel_sum_modeq_zero htail _ v
          intro m' hm'
          have hm'M : m' ∣ M :=
            dvd_trans (dvd_trans (List.dvd_prod hm')
              (by rw [hcons] at hdvd ⊢; exact dvd_mul_left _ _)) hdvd
          rw [Nat.dvd_div_iff_mul_dvd hm'M]
          calc m' * m ∣ m * sel'.prod := by
                rw [mul_comm m']
                exact mul_dvd_mul_left m (List.dvd_prod hm')
            _ = (m :: sel').prod := hcons.symm
            _ ∣ M := hdvd
        simpa using hterm.add htail0
      have hmodp : ((v % m : ℕ) : ℤ) * w + crt_pixel_sum sel' ws' v
          ≡ (v : ℤ) [ZMOD (sel'.prod : ℤ)] := by
        have hterm0 : ((v % m : ℕ) : ℤ) * w ≡ 0 [ZMOD (sel'.prod : ℤ)] := by
          refine Int.modEq_zero_iff_dvd.mpr ?_
          refine Dvd.dvd.mul_left (crt_weight_dvd hmw ?_) _
          rw [Nat.dvd_div_iff_mul_dvd hmM]
          rw [← hcons]
          exact hdvd
        have htailv : crt_pixel_sum sel' ws' v ≡ (v : ℤ) [ZMOD (sel'.prod : ℤ)] :=
          ih hp' hpos' hdvd'
        simpa using hterm0.add htailv
      have hcp : Nat.Coprime m sel'.prod := coprime_list_prod hcop
      have hnat : ((m : ℤ)).natAbs.Coprime ((sel'.prod : ℤ)).natAbs := by
        rw [Int.natAbs_ofNat, Int.natAbs_ofNat]; exact hcp
      have hmul := (Int.modEq_and_modEq_iff_modEq_mul hnat).mp ⟨hmodm, hmodp⟩
      rw [hcons, Nat.cast_mul]
      exact hmul

theorem crt_weight_total {M m : ℕ} (h : Nat.gcd (M / m) m = 1) :
    crt_weight M m
      = some (((M / m : ℕ) : ℤ) * ((extended_gcd (M / m) m).2.1 % (m : ℤ))) := by
  unfold crt_weight
  rw [mod_inverse_eq_some h]
  rfl

theorem compute_weights_total {M : ℕ} {sel : List ℕ}
    (h : ∀ m ∈ sel, Nat.gcd (M / m) m = 1) :
    ∃ ws, compute_weights M sel = some ws
      ∧ List.Forall₂ (fun m w => crt_weight M m = some w) sel ws := by
  induction sel with
  | nil => exact ⟨[], rfl, List.Forall₂.nil⟩
  | cons m rest ih =>
      obtain ⟨ws, hws, hfa⟩ := ih (fun x hx => h x (List.mem_cons_of_mem m hx))
      have hm := crt_weight_total (h m (List.mem_cons_self m rest))
      refine ⟨_ :: ws, ?_, List.Forall₂.cons hm hfa⟩
      rw [compute_weights]
      rw [hm, hws]
      rfl

theorem replicate_zero_eq_map (pixels : List ℕ) :
    List.replicate pixels.length (0 : ℤ) = pixels.map (fun _ => 0) := by
  induction pixels with
  | nil => rfl
  | cons p ps ih => simp only [List.length_cons, List.replicate_succ, List.map_cons, ih]

theorem fold_zip_accum (pixels : List ℕ) (qs : List (ℕ × ℤ)) (f : ℕ → ℤ) :
    qs.foldl
      (fun acc q => List.zipWith (· + ·) acc
        ((split_shadow pixels q.1).map (fun v : ℕ => (v : ℤ) * q.2)))
      (pixels.map f)
    = pixels.map
        (fun v => f v + ((qs.map (fun q => ((v % q.1 : ℕ) : ℤ) * q.2)).sum)) := by
  induction qs generalizing f with
  | nil => simp
  | cons q qs ih =>
      rw [List.foldl_cons]
      have hstep : List.zipWith (· + ·) (pixels.map f)
          ((split_shadow pixels q.1).map (fun v : ℕ => (v : ℤ) * q.2))
          = pixels.map (fun v => f v + ((v % q.1 : ℕ) : ℤ) * q.2) := by
        rw [split_shadow, List.map_map, List.zipWith_map, List.zipWith_same]
        rfl
      rw [hstep, ih]
      apply List.map_congr_left
      intro v _
      simp [add_assoc]

theorem crt_pixel_final {sel : List ℕ} {ws : List ℤ} {v m0 : ℕ}
    (hp : sel.Pairwise Nat.Coprime) (hbig : ∀ m ∈ sel, 255 < m)
    (hne : sel ≠ [])
    (hw : List.Forall₂ (fun m w => crt_weight (sel.prod) m = some w) sel ws)
    (hv : v ≤ 255) (hm0 : 255 < m0) :
    (((crt_pixel_sum sel ws v % (sel.prod : ℤ)) % (m0 : ℤ)).toNat) % 256 = v := by
  have hpos : ∀ m ∈ sel, 0 < m := fun m hm => lt_trans (by norm_num) (hbig m hm)
  have hmodeq := crt_pixel_sum_modeq hp hpos dvd_rfl hw v
  obtain ⟨m, hm⟩ := List.exists_mem_of_ne_nil sel hne
  have hprodpos : 0 < sel.prod := List.prod_pos hpos
  have hvlt : v < sel.prod :=
    lt_of_lt_of_le (lt_of_le_of_lt hv (hbig m hm)) (Nat.le_of_dvd hprodpos (List.dvd_prod hm))
  have h1 : crt_pixel_sum sel ws v % (sel.prod : ℤ) = (v : ℤ) := by
    rw [hmodeq]
    exact Int.emod_eq_of_lt (Int.natCast_nonneg v) (by exact_mod_cast hvlt)
  rw [h1]
  have h2 : (v : ℤ) % (m0 : ℤ) = (v : ℤ) :=
    Int.emod_eq_of_lt (Int.natCast_nonneg v)
      (by exact_mod_cast lt_of_le_of_lt hv hm0)
  rw [h2, Int.toNat_natCast]
  exact Nat.mod_eq_of_lt (lt_of_le_of_lt hv (by norm_num))

/-- C1: CRT round-trip.  For every pixel stream with values in [0, 255] and
every valid (n, t) moduli set (pairwise coprime, each modulus above 255,
Asmuth-Bloom bound satisfied), splitting each pixel into residues
(`ImageCRTSplitter.split`: share i holds pixel mod m_i) and recombining any t
of the n shares with the CRT weighted sum of `batch_crt_solve` (including the
final reduction mod the secret modulus m0 and the uint8 cast) recovers every
pixel exactly. -/
theorem crt_round_trip
    (n t : ℕ) (moduli sel : List ℕ) (pixels : List ℕ) (m0 : ℕ)
    (hval : validate_moduli n moduli)
    (hAB : asmuth_bound_ok moduli t)
    (hsel : List.Subperm sel moduli) (hlen : sel.length = t) (ht : 1 ≤ t)
    (hm0 : 255 < m0)
    (hpix : ∀ v ∈ pixels, v ≤ 255) :
    batch_crt_solve (sel.map (split_shadow pixels)) sel m0 = some pixels := by
  obtain ⟨hn, hcopm, hbigm⟩ := hval
  obtain ⟨l', hperm, hsub⟩ := hsel
  have hcop : sel.Pairwise Nat.Coprime :=
    ((hperm.pairwise_iff (fun {a b} h => Nat.Coprime.symm h)).mp
      (List.Pairwise.sublist hsub hcopm))
  have hbig : ∀ m ∈ sel, 255 < m := fun m hm =>
    hbigm m (List.Subperm.subset ⟨l', hperm, hsub⟩ hm)
  have hpos : ∀ m ∈ sel, 0 < m := fun m hm => lt_trans (by norm_num) (hbig m hm)
  have hne : sel ≠ [] := by
    intro h
    rw [h] at hlen
    simp at hlen
    omega
  -- the weights all exist
  have hgcd : ∀ m ∈ sel, Nat.gcd (sel.prod / m) m = 1 :=
    fun m hm => prod_div_mem_coprime hcop hpos hm
  have hM : get_product sel = sel.prod := get_product_eq_prod sel
  have hgcd2 : ∀ m ∈ sel, Nat.gcd (get_product sel / m) m = 1 := by
    rw [hM]; exact hgcd
  obtain ⟨ws, hws, hfa⟩ := compute_weights_total hgcd2
  -- reduce the solver to the per-pixel weighted sums
  unfold batch_crt_solve
  simp only [hws]
  have hhead : ((sel.map (split_shadow pixels)).headD []).length = pixels.length := by
    cases sel with
    | nil => exact absurd rfl hne
    | cons m rest => simp [split_shadow]
  have hzip : (sel.map (split_shadow pixels)).zip ws
      = (sel.zip ws).map (fun q => (split_shadow pixels q.1, q.2)) := by
    rw [List.zip_map_left]
    rfl
  rw [hzip, List.foldl_map, hhead, replicate_zero_eq_map, fold_zip_accum,
    List.map_map]
  have hfin : ∀ v ∈ pixels,
      ((((0 + (((sel.zip ws).map (fun q => ((v % q.1 : ℕ) : ℤ) * q.2)).sum))
        % ((get_product sel : ℕ) : ℤ)) % ((m0 : ℕ) : ℤ)).toNat % 256) = v := by
    intro v hv
    rw [zero_add, hM]
    exact crt_pixel_final hcop hbig hne (by rw [hM] at hfa; exact hfa)
      (hpix v hv) hm0
  calc some (pixels.map _) = some (pixels.map id) := by
        exact congrArg some (List.map_congr_left (fun v hv => hfin v hv))
    _ = some pixels := by rw [List.map_id]

/-- Witness for crt_round_trip: a concrete (n, t) = (1, 1) scheme with modulus
257 and the pixel stream [0, 128, 255] splits and recombines exactly. -/
theorem crt_round_trip_witness :
    validate_moduli 1 [257] ∧ asmuth_bound_ok [257] 1 ∧
      batch_crt_solve (([257] : List ℕ).map (split_shadow [0, 128, 255])) [257] 257
        = some [0, 128, 255] :=
  ⟨⟨rfl, by decide, by decide⟩, by unfold asmuth_bound_ok; decide,
    crt_round_trip 1 1 [257] [257] [0, 128, 255] 257 ⟨rfl, by decide, by decide⟩
      (by unfold asmuth_bound_ok; decide) (List.Subperm.refl _) rfl (by decide)
      (by decide) (by decide)⟩

/-! ## scrambler.py : ArnoldScrambler -/

/-- An image is a pixel function on integer (row, col) coordinates; one value
of type A stands for the full channel vector at that position. -/
def update2 {A : Type} (f : ℤ → ℤ → A) (p : ℤ × ℤ) (v : A) : ℤ → ℤ → A :=
  fun y x => if y = p.1 ∧ x = p.2 then v else f y x

/-- All (row, col) coordinates of the n by n padded square, as produced by
np.indices((n, n)). -/
def coords (n : ℕ) : List (ℤ × ℤ) :=
  ((List.range n) ×ˢ (List.range n)).map (fun p => ((p.1 : ℤ), (p.2 : ℤ)))

/-- The vectorized assignment img_next[sigma(yy, xx)] = img_curr[yy, xx]
carried out over a coordinate list, starting from np.zeros_like. -/
def scatter {A : Type} (sigma : ℤ × ℤ → ℤ × ℤ) (cur : ℤ → ℤ → A)
    (init : ℤ → ℤ → A) (pts : List (ℤ × ℤ)) : ℤ → ℤ → A :=
  pts.foldl (fun acc p => update2 acc (sigma p) (cur p.1 p.2)) init

/-- The forward cat map of ArnoldScrambler.scramble, as a (row, col) pair:
yy_new = (a*xx + (a*b+1)*yy) mod n and xx_new = (xx + b*yy) mod n. -/
def arnold_fwd (n a b : ℤ) (p : ℤ × ℤ) : ℤ × ℤ :=
  ((a * p.2 + (a * b + 1) * p.1) % n, (p.2 + b * p.1) % n)

/-- The inverse map of ArnoldScrambler.unscramble:
yy_old = (-a*xx + yy) mod n and xx_old = ((a*b+1)*xx - b*yy) mod n. -/
def arnold_bwd (n a b : ℤ) (p : ℤ × ℤ) : ℤ × ℤ :=
  ((-a * p.2 + p.1) % n, ((a * b + 1) * p.2 - b * p.1) % n)

/-- One round of the scramble loop. -/
def scramble_round {A : Type} (n : ℕ) (a b : ℤ) (z : A) (cur : ℤ → ℤ → A) :
    ℤ → ℤ → A :=
  scatter (arnold_fwd n a b) cur (fun _ _ => z) (coords n)

/-- One round of the unscramble loop. -/
def unscramble_round {A : Type} (n : ℕ) (a b : ℤ) (z : A) (cur : ℤ → ℤ → A) :
    ℤ → ℤ → A :=
  scatter (arnold_bwd n a b) cur (fun _ _ => z) (coords n)

/-- The iteration loop of scramble (img_curr = round(img_curr), repeated). -/
def scramble_iter {A : Type} (n : ℕ) (a b : ℤ) (z : A) :
    ℕ → (ℤ → ℤ → A) → ℤ → ℤ → A
  | 0, img => img
  | (k+1), img => scramble_iter n a b z k (scramble_round n a b z img)

/-- The iteration loop of unscramble. -/
def unscramble_iter {A : Type} (n : ℕ) (a b : ℤ) (z : A) :
    ℕ → (ℤ → ℤ → A) → ℤ → ℤ → A
  | 0, img => img
  | (k+1), img => unscramble_iter n a b z k (unscramble_round n a b z img)

/-- Zero-padding of an h by w image to the n by n square (n = max h w),
`padded_img[:h, :w, :] = image_array`. -/
def pad_image {A : Type} (h w : ℕ) (z : A) (img : ℤ → ℤ → A) : ℤ → ℤ → A :=
  fun y x => if 0 ≤ y ∧ y < (h : ℤ) ∧ 0 ≤ x ∧ x < (w : ℤ) then img y x else z

/-- Embedding of ArnoldScrambler.scramble: pad to the max(h,w) square and
iterate the cat map; the recorded original size (h, w) is returned alongside. -/
def ArnoldScrambler_scramble {A : Type} (iterations : ℕ) (a b : ℤ) (z : A)
    (h w : ℕ) (img : ℤ → ℤ → A) : (ℤ → ℤ → A) × (ℕ × ℕ) :=
  (scramble_iter (max h w) a b z iterations (pad_image h w z img), (h, w))

/-- Embedding of ArnoldScrambler.unscramble (before the final crop, which the
round-trip theorem expresses by quantifying over the cropped coordinates). -/
def ArnoldScrambler_unscramble {A : Type} (iterations : ℕ) (a b : ℤ) (z : A)
    (n : ℕ) (img : ℤ → ℤ → A) : ℤ → ℤ → A :=
  unscramble_iter n a b z iterations img

theorem mem_coords {n : ℕ} {q : ℤ × ℤ} :
    q ∈ coords n ↔ 0 ≤ q.1 ∧ q.1 < n ∧ 0 ≤ q.2 ∧ q.2 < n := by
  unfold coords
  constructor
  · intro hq
    obtain ⟨⟨py, px⟩, hp, rfl⟩ := List.mem_map.mp hq
    obtain ⟨h1, h2⟩ := List.mem_product.mp hp
    rw [List.mem_range] at h1 h2
    simp only []
    exact ⟨Int.natCast_nonneg _, by exact_mod_cast h1, Int.natCast_nonneg _,
      by exact_mod_cast h2⟩
  · rintro ⟨h1, h2, h3, h4⟩
    refine List.mem_map.mpr ⟨(q.1.toNat, q.2.toNat), ?_, ?_⟩
    · refine List.mem_product.mpr ⟨?_, ?_⟩ <;> rw [List.mem_range]
      · omega
      · omega
    · have e1 : ((q.1.toNat : ℕ) : ℤ) = q.1 := Int.toNat_of_nonneg h1
      have e2 : ((q.2.toNat : ℕ) : ℤ) = q.2 := Int.toNat_of_nonneg h3
      cases q
      simp_all

theorem coords_nodup (n : ℕ) : (coords n).Nodup := by
  unfold coords
  refine List.Nodup.map ?_ (List.Nodup.product (List.nodup_range n) (List.nodup_range n))
  intro p q hpq
  cases p; cases q
  simp only [Prod.mk.injEq] at hpq ⊢
  exact ⟨by exact_mod_cast hpq.1, by exact_mod_cast hpq.2⟩

theorem arnold_fwd_mem {n : ℕ} (hn : 0 < n) (a b : ℤ) (p : ℤ × ℤ) :
    arnold_fwd n a b p ∈ coords n := by
  have hn' : (n : ℤ) ≠ 0 := by exact_mod_cast Nat.pos_iff_ne_zero.mp hn
  have hnpos : (0 : ℤ) < n := by exact_mod_cast hn
  refine mem_coords.mpr ⟨?_, ?_, ?_, ?_⟩
  · exact Int.emod_nonneg _ hn'
  · exact Int.emod_lt_of_pos _ hnpos
  · exact Int.emod_nonneg _ hn'
  · exact Int.emod_lt_of_pos _ hnpos

theorem arnold_bwd_mem {n : ℕ} (hn : 0 < n) (a b : ℤ) (p : ℤ × ℤ) :
    arnold_bwd n a b p ∈ coords n := by
  have hn' : (n : ℤ) ≠ 0 := by exact_mod_cast Nat.pos_iff_ne_zero.mp hn
  have hnpos : (0 : ℤ) < n := by exact_mod_cast hn
  refine mem_coords.mpr ⟨?_, ?_, ?_, ?_⟩
  · exact Int.emod_nonneg _ hn'
  · exact Int.emod_lt_of_pos _ hnpos
  · exact Int.emod_nonneg _ hn'
  · exact Int.emod_lt_of_pos _ hnpos

theorem arnold_bwd_fwd {n : ℕ} (a b : ℤ) {p : ℤ × ℤ} (hp : p ∈ coords n) :
    arnold_bwd n a b (arnold_fwd n a b p) = p := by
  obtain ⟨h1, h2, h3, h4⟩ := mem_coords.mp hp
  obtain ⟨y, x⟩ := p
  simp only [arnold_fwd, arnold_bwd, Prod.mk.injEq]
  constructor
  · have hc : (-a * ((x + b * y) % n) + (a * x + (a * b + 1) * y) % n)
        ≡ (-a * (x + b * y) + (a * x + (a * b + 1) * y)) [ZMOD (n : ℤ)] :=
      Int.ModEq.add (Int.ModEq.mul_left _ (Int.emod_emod_of_dvd _ dvd_rfl))
        (Int.emod_emod_of_dvd _ dvd_rfl)
    have he : (-a * (x + b * y) + (a * x + (a * b + 1) * y)) = y := by ring
    rw [he] at hc
    rw [hc]
    exact Int.emod_eq_of_lt h1 h2
  · have hc : ((a * b + 1) * ((x + b * y) % n) - b * ((a * x + (a * b + 1) * y) % n))
        ≡ ((a * b + 1) * (x + b * y) - b * (a * x + (a * b + 1) * y)) [ZMOD (n : ℤ)] :=
      Int.ModEq.sub (Int.ModEq.mul_left _ (Int.emod_emod_of_dvd _ dvd_rfl))
        (Int.ModEq.mul_left _ (Int.emod_emod_of_dvd _ dvd_rfl))
    have he : ((a * b + 1) * (x + b * y) - b * (a * x + (a * b + 1) * y)) = x := by ring
    rw [he] at hc
    rw [hc]
    exact Int.emod_eq_of_lt h3 h4

theorem arnold_fwd_bwd {n : ℕ} (a b : ℤ) {p : ℤ × ℤ} (hp : p ∈ coords n) :
    arnold_fwd n a b (arnold_bwd n a b p) = p := by
  obtain ⟨h1, h2, h3, h4⟩ := mem_coords.mp hp
  obtain ⟨y, x⟩ := p
  simp only [arnold_fwd, arnold_bwd, Prod.mk.injEq]
  constructor
  · have hc : (a * (((a * b + 1) * x - b * y) % n) + (a * b + 1) * ((-a * x + y) % n))
        ≡ (a * ((a * b + 1) * x - b * y) + (a * b + 1) * (-a * x + y)) [ZMOD (n : ℤ)] :=
      Int.ModEq.add (Int.ModEq.mul_left _ (Int.emod_emod_of_dvd _ dvd_rfl))
        (Int.ModEq.mul_left _ (Int.emod_emod_of_dvd _ dvd_rfl))
    have he : (a * ((a * b + 1) * x - b * y) + (a * b + 1) * (-a * x + y)) = y := by ring
    rw [he] at hc
    rw [hc]
    exact Int.emod_eq_of_lt h1 h2
  · have hc : ((((a * b + 1) * x - b * y) % n) + b * ((-a * x + y) % n))
        ≡ (((a * b + 1) * x - b * y) + b * (-a * x + y)) [ZMOD (n : ℤ)] :=
      Int.ModEq.add (Int.emod_emod_of_dvd _ dvd_rfl)
        (Int.ModEq.mul_left _ (Int.emod_emod_of_dvd _ dvd_rfl))
    have he : (((a * b + 1) * x - b * y) + b * (-a * x + y)) = x := by ring
    rw [he] at hc
    rw [hc]
    exact Int.emod_eq_of_lt h3 h4

theorem scatter_not_mem {A : Type} {sigma : ℤ × ℤ → ℤ × ℤ} {cur : ℤ → ℤ → A}
    {pts : List (ℤ × ℤ)} {z : ℤ × ℤ} (h : ∀ q ∈ pts, sigma q ≠ z) :
    ∀ init, scatter sigma cur init pts z.1 z.2 = init z.1 z.2 := by
  induction pts with
  | nil => intro init; rfl
  | cons r rest ih =>
      intro init
      have hr := h r (List.mem_cons_self r rest)
      have hstep : update2 init (sigma r) (cur r.1 r.2) z.1 z.2 = init z.1 z.2 := by
        unfold update2
        rw [if_neg]
        intro hcon
        exact hr (Prod.ext hcon.1.symm hcon.2.symm)
      calc scatter sigma cur init (r :: rest) z.1 z.2
          = scatter sigma cur (update2 init (sigma r) (cur r.1 r.2)) rest z.1 z.2 := rfl
        _ = update2 init (sigma r) (cur r.1 r.2) z.1 z.2 :=
            ih (fun q hq => h q (List.mem_cons_of_mem r hq)) _
        _ = init z.1 z.2 := hstep

theorem scatter_mem {A : Type} {sigma : ℤ × ℤ → ℤ × ℤ} {cur : ℤ → ℤ → A}
    {pts : List (ℤ × ℤ)} {p : ℤ × ℤ} (hnd : pts.Nodup)
    (hinj : ∀ q ∈ pts, ∀ r ∈ pts, sigma q = sigma r → q = r) (hp : p ∈ pts) :
    ∀ init, scatter sigma cur init pts (sigma p).1 (sigma p).2 = cur p.1 p.2 := by
  induction pts with
  | nil => cases hp
  | cons r rest ih =>
      intro init
      have hnd' : rest.Nodup := (List.nodup_cons.mp hnd).2
      have hrni : r ∉ rest := (List.nodup_cons.mp hnd).1
      rcases List.mem_cons.mp hp with hpr | hprest
      · subst hpr
        have hnot : ∀ q ∈ rest, sigma q ≠ sigma p := by
          intro q hq hcon
          exact hrni (by
            have heq := hinj q (List.mem_cons_of_mem p hq) p (List.mem_cons_self p rest) hcon
            rwa [heq] at hq)
        calc scatter sigma cur init (p :: rest) (sigma p).1 (sigma p).2
            = scatter sigma cur (update2 init (sigma p) (cur p.1 p.2)) rest
                (sigma p).1 (sigma p).2 := rfl
          _ = update2 init (sigma p) (cur p.1 p.2) (sigma p).1 (sigma p).2 :=
              scatter_not_mem hnot _
          _ = cur p.1 p.2 := by unfold update2; rw [if_pos ⟨rfl, rfl⟩]
      · exact ih hnd'
          (fun q hq s hs => hinj q (List.mem_cons_of_mem r hq) s (List.mem_cons_of_mem r hs))
          hprest _

theorem scramble_round_apply {A : Type} {n : ℕ} (hn : 0 < n) (a b : ℤ) (z : A)
    (cur : ℤ → ℤ → A) {q : ℤ × ℤ} (hq : q ∈ coords n) :
    scramble_round n a b z cur q.1 q.2
      = cur (arnold_bwd n a b q).1 (arnold_bwd n a b q).2 := by
  have hmem : arnold_bwd n a b q ∈ coords n := arnold_bwd_mem hn a b q
  have hfb : arnold_fwd n a b (arnold_bwd n a b q) = q := arnold_fwd_bwd a b hq
  have hinj : ∀ s ∈ coords n, ∀ r ∈ coords n,
      arnold_fwd n a b s = arnold_fwd n a b r → s = r := by
    intro s hs r hr hsr
    have h1 := arnold_bwd_fwd a b hs
    have h2 := arnold_bwd_fwd a b hr
    rw [← h1, ← h2, hsr]
  have hsc := @scatter_mem A (arnold_fwd (n : ℤ) a b) cur (coords n)
    (arnold_bwd (n : ℤ) a b q) (coords_nodup n) hinj hmem (fun _ _ => z)
  rw [hfb] at hsc
  exact hsc

theorem unscramble_round_apply {A : Type} {n : ℕ} (hn : 0 < n) (a b : ℤ) (z : A)
    (cur : ℤ → ℤ → A) {q : ℤ × ℤ} (hq : q ∈ coords n) :
    unscramble_round n a b z cur q.1 q.2
      = cur (arnold_fwd n a b q).1 (arnold_fwd n a b q).2 := by
  have hmem : arnold_fwd n a b q ∈ coords n := arnold_fwd_mem hn a b q
  have hbf : arnold_bwd n a b (arnold_fwd n a b q) = q := arnold_bwd_fwd a b hq
  have hinj : ∀ s ∈ coords n, ∀ r ∈ coords n,
      arnold_bwd n a b s = arnold_bwd n a b r → s = r := by
    intro s hs r hr hsr
    have h1 := arnold_fwd_bwd a b hs
    have h2 := arnold_fwd_bwd a b hr
    rw [← h1, ← h2, hsr]
  have hsc := @scatter_mem A (arnold_bwd (n : ℤ) a b) cur (coords n)
    (arnold_fwd (n : ℤ) a b q) (coords_nodup n) hinj hmem (fun _ _ => z)
  rw [hbf] at hsc
  exact hsc

theorem unscramble_iter_congr {A : Type} {n : ℕ} (hn : 0 < n) (a b : ℤ) (z : A)
    (k : ℕ) :
    ∀ f g : ℤ → ℤ → A, (∀ q ∈ coords n, f q.1 q.2 = g q.1 q.2) →
      ∀ q ∈ coords n, unscramble_iter n a b z k f q.1 q.2
        = unscramble_iter n a b z k g q.1 q.2 := by
  induction k with
  | zero => intro f g hfg q hq; exact hfg q hq
  | succ k ih =>
      intro f g hfg q hq
      apply ih
      · intro s hs
        rw [unscramble_round_apply hn a b z f hs, unscramble_round_apply hn a b z g hs]
        exact hfg _ (arnold_fwd_mem hn a b s)
      · exact hq

theorem scramble_iter_out {A : Type} (n : ℕ) (a b : ℤ) (z : A) (k : ℕ)
    (img : ℤ → ℤ → A) :
    scramble_iter n a b z (k+1) img
      = scramble_round n a b z (scramble_iter n a b z k img) := by
  induction k generalizing img with
  | zero => rfl
  | succ k ih =>
      calc scramble_iter n a b z (k+2) img
          = scramble_iter n a b z (k+1) (scramble_round n a b z img) := rfl
        _ = scramble_round n a b z (scramble_iter n a b z k (scramble_round n a b z img)) :=
            ih _
        _ = scramble_round n a b z (scramble_iter n a b z (k+1) img) := rfl

theorem scramble_unscramble_iter {A : Type} {n : ℕ} (hn : 0 < n) (a b : ℤ)
    (z : A) (k : ℕ) :
    ∀ cur : ℤ → ℤ → A, ∀ q ∈ coords n,
      unscramble_iter n a b z k (scramble_iter n a b z k cur) q.1 q.2
        = cur q.1 q.2 := by
  induction k with
  | zero => intro cur q _; rfl
  | succ k ih =>
      intro cur q hq
      rw [scramble_iter_out]
      have hUR : ∀ s ∈ coords n,
          unscramble_round n a b z
            (scramble_round n a b z (scramble_iter n a b z k cur)) s.1 s.2
          = scramble_iter n a b z k cur s.1 s.2 := by
        intro s hs
        rw [unscramble_round_apply hn a b z _ hs]
        rw [scramble_round_apply hn a b z _ (arnold_fwd_mem hn a b s)]
        rw [arnold_bwd_fwd a b hs]
      calc unscramble_iter n a b z (k+1)
            (scramble_round n a b z (scramble_iter n a b z k cur)) q.1 q.2
          = unscramble_iter n a b z k
              (unscramble_round n a b z
                (scramble_round n a b z (scramble_iter n a b z k cur))) q.1 q.2 := rfl
        _ = unscramble_iter n a b z k (scramble_iter n a b z k cur) q.1 q.2 :=
            unscramble_iter_congr hn a b z k _ _ hUR q hq
        _ = cur q.1 q.2 := ih cur q hq

/-- C8: Scramble/unscramble round-trip.  For every h by w image (a pixel
carries its whole channel vector), every iteration count and every cat-map
parameter pair (a, b), scrambling (pad to the max(h,w) square, iterate the cat
map) and then unscrambling with the same parameters and cropping to the
recorded original shape returns exactly the original image: the two sides
agree at every coordinate inside the crop window. -/
theorem scramble_unscramble_roundtrip {A : Type} (z : A) (img : ℤ → ℤ → A)
    (h w iterations : ℕ) (a b : ℤ) (y x : ℤ)
    (hy0 : 0 ≤ y) (hy : y < (h : ℤ)) (hx0 : 0 ≤ x) (hx : x < (w : ℤ)) :
    ArnoldScrambler_unscramble iterations a b z (max h w)
      (ArnoldScrambler_scramble iterations a b z h w img).1 y x = img y x := by
  have hq : ((y, x) : ℤ × ℤ) ∈ coords (max h w) := by
    refine mem_coords.mpr ⟨hy0, ?_, hx0, ?_⟩
    · exact lt_of_lt_of_le hy (by exact_mod_cast Nat.le_max_left h w)
    · exact lt_of_lt_of_le hx (by exact_mod_cast Nat.le_max_right h w)
  have hn : 0 < max h w := by
    have : (0 : ℤ) < ((max h w : ℕ) : ℤ) := lt_of_le_of_lt hy0 (mem_coords.mp hq).2.1
    exact_mod_cast this
  unfold ArnoldScrambler_unscramble ArnoldScrambler_scramble
  have := scramble_unscramble_iter hn a b z iterations (pad_image h w z img)
    ((y, x)) hq
  simp only [] at this
  rw [this]
  unfold pad_image
  rw [if_pos ⟨hy0, hy, hx0, hx⟩]

/-- Witness for scramble_unscramble_roundtrip: a 2 by 3 image, 5 iterations,
parameters (a, b) = (1, 1), read back at coordinate (1, 2). -/
theorem scramble_unscramble_roundtrip_witness :
    ((0 : ℤ) ≤ 1 ∧ (1 : ℤ) < ((2 : ℕ) : ℤ) ∧ (0 : ℤ) ≤ 2 ∧ (2 : ℤ) < ((3 : ℕ) : ℤ)) ∧
    ArnoldScrambler_unscramble 5 1 1 (0 : ℤ) (max 2 3)
      (ArnoldScrambler_scramble 5 1 1 (0 : ℤ) 2 3 (fun y x => 10 * y + x)).1 1 2
      = (fun y x : ℤ => 10 * y + x) 1 2 :=
  ⟨⟨by norm_num, by norm_num, by norm_num, by norm_num⟩,
   scramble_unscramble_roundtrip 0 (fun y x => 10 * y + x) 2 3 5 1 1 1 2
     (by norm_num) (by norm_num) (by norm_num) (by norm_num)⟩

/-! ## config.py constants and reconstructor.py -/

def T_THRESHOLD : ℕ := 3

def LARGE_PRIME_Q : ℕ := 257

/-- The share dictionary consumed by ImageCRTReconstructor.reconstruct:
keys mod, data, shape. -/
structure ShareDict where
  mod : ℕ
  data : List ℕ
  shape : List ℕ

/-- Embedding of ImageCRTReconstructor.reconstruct: returns None on an empty
share list, otherwise combines all supplied shares by the CRT weighted sum
with no threshold check; the error case models the exception raised by
_modinv.  The final values are acc mod M cast to uint8. -/
def ImageCRTReconstructor_reconstruct (valid_shares : List ShareDict) :
    Except String (Option (List ℕ)) :=
  if valid_shares.isEmpty then .ok none
  else
    match (valid_shares.foldlM (fun (acc : List ℤ) sh =>
        match mod_inverse ((valid_shares.map (fun s => s.mod)).prod / sh.mod) sh.mod with
        | none => Except.error "Modular inverse does not exist"
        | some yi => Except.ok (List.zipWith (· + ·) acc
            (sh.data.map (fun v : ℕ => (v : ℤ)
              * (((valid_shares.map (fun s => s.mod)).prod / sh.mod : ℕ) : ℤ) * yi))))
      (List.replicate (valid_shares.headD ⟨0, [], []⟩).shape.prod (0 : ℤ))
      : Except String (List ℤ)) with
    | .error e => .error e
    | .ok acc => .ok (some (acc.map (fun s =>
        (s % (((valid_shares.map (fun s => s.mod)).prod : ℕ) : ℤ)).toNat % 256)))

/-- The loaded .npy share packet consumed by reconstruct_image. -/
structure SharePacket where
  index : ℕ
  modulus : ℕ
  data : List ℕ
  shape : ℕ × ℕ × ℕ
  original_shape : ℕ × ℕ
  signature : Option (List ℕ)

def default_packet : SharePacket := ⟨0, 0, [], (0, 0, 0), (0, 0), none⟩

/-- Embedding of ImageCRTReconstructor.reconstruct_image on already-loaded
packets: threshold check first, then shape-consistency check, CRT on the first
t shares, extraction mod LARGE_PRIME_Q, uint8 cast, reshape to the share
shape, Arnold unscramble (iterations = 10, a = b = 1) and crop to the
recorded original shape. -/
def ImageCRTReconstructor_reconstruct_image (packets : List SharePacket) :
    Except String ((ℤ → ℤ → List ℕ) × Option (List ℕ)) :=
  if packets.length < T_THRESHOLD then
    .error "Insufficient shares"
  else
    let first := packets.headD default_packet
    if packets.any (fun p => p.shape ≠ first.shape) then .error "Shape mismatch"
    else
      let selected := packets.take T_THRESHOLD
      let active_moduli := selected.map (fun p => p.modulus)
      let M := active_moduli.prod
      match compute_weights M active_moduli with
      | none => .error "Modular inverse does not exist"
      | some ws =>
          let ys := selected.map (fun p => p.data)
          let pixel_count := (ys.headD []).length
          let Y := (List.range pixel_count).map (fun i =>
            (((ys.zip ws).map (fun p => ((p.1.getD i 0 : ℕ) : ℤ) * p.2)).sum) % (M : ℤ))
          let S := Y.map (fun yv => (yv % (LARGE_PRIME_Q : ℤ)).toNat % 256)
          let c := first.shape.2.2
          let reshaped : ℤ → ℤ → List ℕ := fun y x =>
            (List.range c).map (fun ch =>
              S.getD ((y.toNat * first.shape.2.1 + x.toNat) * c + ch) 0)
          let unscrambled :=
            ArnoldScrambler_unscramble 10 1 1 (List.replicate c 0) first.shape.1 reshaped
          let cropped : ℤ → ℤ → List ℕ := fun y x =>
            if 0 ≤ y ∧ y < (first.original_shape.1 : ℤ)
                ∧ 0 ≤ x ∧ x < (first.original_shape.2 : ℤ) then unscrambled y x
            else List.replicate c 0
          .ok (cropped, first.signature)

theorem mod_inverse_one {m : ℕ} (hm : 1 < m) : mod_inverse 1 m = some 1 := by
  have hsome := mod_inverse_eq_some (Nat.gcd_one_left m)
  have hspec := mod_inverse_spec hsome
  rw [Nat.cast_one, one_mul] at hspec
  have hmz : (0 : ℤ) < (m : ℤ) := by exact_mod_cast lt_trans one_pos hm
  have hval : (extended_gcd 1 m).2.1 % (m : ℤ) = 1 := by
    have h1 : (extended_gcd 1 m).2.1 % (m : ℤ) % (m : ℤ)
        = (extended_gcd 1 m).2.1 % (m : ℤ) := Int.emod_emod_of_dvd _ dvd_rfl
    have h2 : (1 : ℤ) % (m : ℤ) = 1 :=
      Int.emod_eq_of_lt (by norm_num) (by exact_mod_cast hm)
    calc (extended_gcd 1 m).2.1 % (m : ℤ)
        = (extended_gcd 1 m).2.1 % (m : ℤ) % (m : ℤ) := h1.symm
      _ = (1 : ℤ) % (m : ℤ) := hspec
      _ = 1 := h2
  rw [hsome, hval]

/-- Counterexample to C4: ImageCRTReconstructor.reconstruct, called with fewer
than t = 3 shares, does not raise: the empty list yields a plain None result
and a single share is silently combined into a pixel array. -/
theorem reconstruct_no_threshold_counterexample :
    (([] : List ShareDict).length < T_THRESHOLD
      ∧ ImageCRTReconstructor_reconstruct [] = Except.ok none)
    ∧ ([ShareDict.mk 257 [5] [1, 1, 1]].length < T_THRESHOLD
      ∧ ImageCRTReconstructor_reconstruct [ShareDict.mk 257 [5] [1, 1, 1]]
          = Except.ok (some [5])) := by
  refine ⟨⟨by decide, rfl⟩, ⟨by decide, ?_⟩⟩
  have hmi : mod_inverse (257 / 257) 257 = some 1 := by
    rw [Nat.div_self (by norm_num : 0 < 257)]
    exact mod_inverse_one (by norm_num)
  unfold ImageCRTReconstructor_reconstruct
  simp [List.foldlM, hmi]

/-- C4 (amended): only reconstruct_image enforces the threshold: with fewer
than t packets it raises the insufficient-shares ValueError; reconstruct has
no threshold check at all: an empty list returns None and any non-empty list
of shares is combined into a result or a modular-inverse error, never a
threshold error. -/
theorem reconstruct_threshold_amended :
    (∀ packets : List SharePacket, packets.length < T_THRESHOLD →
      ImageCRTReconstructor_reconstruct_image packets = Except.error "Insufficient shares")
    ∧ ImageCRTReconstructor_reconstruct [] = Except.ok none
    ∧ (∀ shares : List ShareDict, shares ≠ [] →
        ImageCRTReconstructor_reconstruct shares ≠ Except.ok none) := by
  refine ⟨?_, rfl, ?_⟩
  · intro packets hlt
    unfold ImageCRTReconstructor_reconstruct_image
    rw [if_pos hlt]
  · intro shares hne
    cases shares with
    | nil => exact absurd rfl hne
    | cons s rest =>
        unfold ImageCRTReconstructor_reconstruct
        rw [if_neg (by simp [List.isEmpty])]
        split <;> simp

/-- Witness for reconstruct_threshold_amended at concrete inputs. -/
theorem reconstruct_threshold_amended_witness :
    ImageCRTReconstructor_reconstruct_image [] = Except.error "Insufficient shares"
    ∧ ImageCRTReconstructor_reconstruct [ShareDict.mk 257 [5] [1, 1, 1]]
        ≠ Except.ok none :=
  ⟨reconstruct_threshold_amended.1 [] (by decide),
   reconstruct_threshold_amended.2.2 [ShareDict.mk 257 [5] [1, 1, 1]]
     (List.cons_ne_nil _ _)⟩

/-! ## moduli_gen.py : generate_secure_moduli -/

/-- The swap-and-mod Euclid while-loop of moduli_gen.gcd; the fuel argument
bounds the loop (b strictly decreases, so b+1 rounds always suffice). -/
def gcd_loop : ℕ → ℕ → ℕ → ℕ
  | 0, a, _ => a
  | (fuel+1), a, b => if b = 0 then a else gcd_loop fuel b (a % b)

/-- Embedding of `gcd(a, b)` from moduli_gen.py. -/
def gcd_src (a b : ℕ) : ℕ := gcd_loop (b + 1) a b

theorem gcd_loop_eq {fuel b : ℕ} (hb : b < fuel) :
    ∀ a, gcd_loop fuel a b = Nat.gcd b a := by
  induction fuel generalizing b with
  | zero => omega
  | succ fuel ih =>
      intro a
      by_cases h0 : b = 0
      · subst h0; simp [gcd_loop]
      · have hbpos : 0 < b := Nat.pos_of_ne_zero h0
        have hlt : a % b < fuel := lt_of_lt_of_le (Nat.mod_lt a hbpos) (by omega)
        calc gcd_loop (fuel+1) a b = gcd_loop fuel b (a % b) := by
              simp [gcd_loop, h0]
          _ = Nat.gcd (a % b) b := ih hlt b
          _ = Nat.gcd b a := (Nat.gcd_rec b a).symm

theorem gcd_src_eq (a b : ℕ) : gcd_src a b = Nat.gcd b a :=
  gcd_loop_eq (Nat.lt_succ_self b) a

/-- Embedding of `is_coprime(num, existing_list)`. -/
def is_coprime (num : ℕ) (existing : List ℕ) : Bool :=
  existing.all (fun x => gcd_src num x == 1)

theorem is_coprime_spec {num : ℕ} {existing : List ℕ}
    (h : is_coprime num existing = true) : ∀ x ∈ existing, Nat.Coprime x num := by
  intro x hx
  have := List.all_eq_true.mp h x hx
  have hg : gcd_src num x = 1 := by exact_mod_cast Nat.beq_eq_true_eq _ _ ▸ this
  rwa [gcd_src_eq] at hg

/-- The greedy coprime-collection loop of generate_secure_moduli.  The fuel
encodes the window bound: the source breaks once candidate has advanced 2000
past the search floor, i.e. after at most 2001 candidates. -/
def greedy_loop (n : ℕ) : ℕ → ℕ → List ℕ → List ℕ
  | 0, _, acc => acc
  | (fuel+1), candidate, acc =>
      if n ≤ acc.length then acc
      else greedy_loop n fuel (candidate + 1)
        (if is_coprime candidate acc then acc ++ [candidate] else acc)

/-- Python `lst[-(k):]`, including the `lst[-0:] = lst` quirk used (with
k = t-1) by the Asmuth-Bloom acceptance test. -/
def python_last_slice {α : Type} (k : ℕ) (l : List α) : List α :=
  if k = 0 then l else l.drop (l.length - k)

/-- The `while True` retry loop of generate_secure_moduli, made total with an
explicit fuel (the source loop has no bound).  Each round greedily collects
candidates from the current floor, widens the floor by 10 when fewer than n
were found, sorts, and accepts when
product(t smallest) > q_pixel * product(moduli[-(t-1):]), else retries with
the floor widened by 13. -/
def generate_secure_moduli_loop (n t q_pixel : ℕ) : ℕ → ℕ → Option (List ℕ)
  | 0, _ => none
  | (fuel+1), current_start =>
      if (greedy_loop n 2001 current_start []).length < n then
        generate_secure_moduli_loop n t q_pixel fuel (current_start + 10)
      else
        if q_pixel * (python_last_slice (t - 1)
              ((greedy_loop n 2001 current_start []).insertionSort (· ≤ ·))).prod
            < (((greedy_loop n 2001 current_start []).insertionSort (· ≤ ·)).take t).prod
        then some ((greedy_loop n 2001 current_start []).insertionSort (· ≤ ·))
        else generate_secure_moduli_loop n t q_pixel fuel (current_start + 13)

/-- Embedding of `generate_secure_moduli(n, t)`: search floor 257, default
pixel bound 255; fuel bounds the unbounded retry loop. -/
def generate_secure_moduli (n t fuel : ℕ) : Option (List ℕ) :=
  generate_secure_moduli_loop n t 255 fuel 257

theorem greedy_loop_invariant (n : ℕ) : ∀ (fuel candidate : ℕ) (acc : List ℕ),
    acc.Pairwise Nat.Coprime → (∀ x ∈ acc, 256 ≤ x) → 256 ≤ candidate →
    acc.length ≤ n →
    (greedy_loop n fuel candidate acc).Pairwise Nat.Coprime
      ∧ (∀ x ∈ greedy_loop n fuel candidate acc, 256 ≤ x)
      ∧ (greedy_loop n fuel candidate acc).length ≤ n := by
  intro fuel
  induction fuel with
  | zero => intro candidate acc h1 h2 _ h4; exact ⟨h1, h2, h4⟩
  | succ fuel ih =>
      intro candidate acc h1 h2 hc h4
      by_cases hn : n ≤ acc.length
      · simp only [greedy_loop, if_pos hn]
        exact ⟨h1, h2, h4⟩
      · simp only [greedy_loop, if_neg hn]
        by_cases hcop : is_coprime candidate acc
        · rw [if_pos hcop]
          refine ih (candidate + 1) (acc ++ [candidate]) ?_ ?_ (by omega) ?_
          · rw [List.pairwise_append]
            refine ⟨h1, List.pairwise_singleton _ _, ?_⟩
            intro a ha b hb
            rw [List.mem_singleton] at hb
            subst hb
            exact is_coprime_spec hcop a ha
          · intro x hx
            rcases List.mem_append.mp hx with hx | hx
            · exact h2 x hx
            · rw [List.mem_singleton] at hx; omega
          · rw [List.length_append, List.length_singleton]; omega
        · rw [if_neg hcop]
          exact ih (candidate + 1) acc h1 h2 (by omega) h4

theorem one_le_list_prod {l : List ℕ} (h : ∀ x ∈ l, 1 ≤ x) : 1 ≤ l.prod := by
  induction l with
  | nil => simp
  | cons a t ih =>
      rw [List.prod_cons]
      exact Nat.one_le_iff_ne_zero.mpr (Nat.mul_ne_zero
        (Nat.one_le_iff_ne_zero.mp (h a (List.mem_cons_self a t)))
        (Nat.one_le_iff_ne_zero.mp (ih (fun x hx => h x (List.mem_cons_of_mem a hx)))))

/-- Shared helper: with t = 1 the acceptance test of generate_secure_moduli
compares product(t smallest) against 255 times the product of the WHOLE sorted
batch (the Python slice moduli[-0:] is the full list), which can never hold,
so the retry loop never returns. -/
theorem gen_loop_t1_none : ∀ (fuel n start : ℕ), 256 ≤ start →
    generate_secure_moduli_loop n 1 255 fuel start = none := by
  intro fuel
  induction fuel with
  | zero => intro n start _; rfl
  | succ fuel ih =>
      intro n start hstart
      by_cases hlen : (greedy_loop n 2001 start []).length < n
      · simp only [generate_secure_moduli_loop, if_pos hlen]
        exact ih n (start + 10) (by omega)
      · have hinv := greedy_loop_invariant n 2001 start []
          (List.Pairwise.nil) (by intro x hx; cases hx) hstart (by simp)
        have hmem : ∀ x ∈ ((greedy_loop n 2001 start []).insertionSort (· ≤ ·)),
            1 ≤ x := by
          intro x hx
          have := (List.perm_insertionSort (· ≤ ·) (greedy_loop n 2001 start [])).mem_iff.mp hx
          have := hinv.2.1 x this
          omega
        have hnotacc : ¬ (255 * (python_last_slice (1 - 1)
              ((greedy_loop n 2001 start []).insertionSort (· ≤ ·))).prod
            < (((greedy_loop n 2001 start []).insertionSort (· ≤ ·)).take 1).prod) := by
          set sorted := (greedy_loop n 2001 start []).insertionSort (· ≤ ·) with hs
          have hslice : python_last_slice (1 - 1) sorted = sorted := by
            simp [python_last_slice]
          rw [hslice]
          have hsplit : (sorted.take 1).prod * (sorted.drop 1).prod = sorted.prod :=
            List.prod_take_mul_prod_drop sorted 1
          have hdrop1 : 1 ≤ (sorted.drop 1).prod :=
            one_le_list_prod (fun x hx => hmem x (List.mem_of_mem_drop hx))
          have htake : (sorted.take 1).prod ≤ sorted.prod := by
            calc (sorted.take 1).prod = (sorted.take 1).prod * 1 := by ring
              _ ≤ (sorted.take 1).prod * (sorted.drop 1).prod :=
                  Nat.mul_le_mul_left _ hdrop1
              _ = sorted.prod := hsplit
          omega
        simp only [generate_secure_moduli_loop, if_neg hlen, if_neg hnotacc]
        exact ih n (start + 13) (by omega)

theorem gen_loop_post : ∀ (fuel n t start : ℕ) (ms : List ℕ), 256 ≤ start →
    generate_secure_moduli_loop n t 255 fuel start = some ms →
    ms.length = n ∧ ms.Pairwise Nat.Coprime ∧ (∀ m ∈ ms, 255 < m)
      ∧ (2 ≤ t → asmuth_bound_ok ms t) := by
  intro fuel
  induction fuel with
  | zero => intro n t start ms _ h; cases h
  | succ fuel ih =>
      intro n t start ms hstart hsome
      by_cases hlen : (greedy_loop n 2001 start []).length < n
      · rw [generate_secure_moduli_loop, if_pos hlen] at hsome
        exact ih n t (start + 10) ms (by omega) hsome
      · rw [generate_secure_moduli_loop, if_neg hlen] at hsome
        by_cases hacc : (255 * (python_last_slice (t - 1)
              ((greedy_loop n 2001 start []).insertionSort (· ≤ ·))).prod
            < (((greedy_loop n 2001 start []).insertionSort (· ≤ ·)).take t).prod)
        · rw [if_pos hacc] at hsome
          have hms : ms = (greedy_loop n 2001 start []).insertionSort (· ≤ ·) :=
            (Option.some.injEq _ _ ▸ hsome).symm
          have hinv := greedy_loop_invariant n 2001 start []
            (List.Pairwise.nil) (by intro x hx; cases hx) hstart (by simp)
          have hperm : ms.Perm (greedy_loop n 2001 start []) := by
            rw [hms]; exact List.perm_insertionSort _ _
          refine ⟨?_, ?_, ?_, ?_⟩
          · rw [List.Perm.length_eq hperm]; omega
          · exact (List.Perm.pairwise_iff (fun {a b} h => Nat.Coprime.symm h)
              hperm).mpr hinv.1
          · intro m hm
            have := hinv.2.1 m (hperm.mem_iff.mp hm)
            omega
          · intro ht2
            have hsorted : ms.Sorted (· ≤ ·) := by
              rw [hms]; exact List.sorted_insertionSort _ _
            unfold asmuth_bound_ok
            rw [List.Sorted.insertionSort_eq hsorted]
            have hslice : python_last_slice (t - 1) ms = ms.drop (ms.length - (t - 1)) := by
              unfold python_last_slice
              rw [if_neg (by omega)]
            rw [← hslice, hms]
            exact hacc
        · rw [if_neg hacc] at hsome
          exact ih n t (start + 13) ms (by omega) hsome

/-- Counterexample to C6: with (n, t) = (1, 1) the generator never returns:
after 1000 rounds of the retry loop from the initial floor 257 no batch has
been accepted (the t = 1 acceptance test is unsatisfiable because the Python
slice for the t-1 largest moduli degenerates to the whole batch). -/
theorem generate_secure_moduli_t1_counterexample :
    generate_secure_moduli 1 1 1000 = none :=
  gen_loop_t1_none 1000 1 257 (by norm_num)

/-- C6 (amended): whenever generate_secure_moduli returns a batch it is a list
of exactly n pairwise-coprime moduli, each above 255, and for every threshold
2 <= t the batch satisfies the Asmuth-Bloom bound; for t = 1 the function
never returns at all (for any retry fuel), because the acceptance test slices
the t-1 largest moduli as the whole batch. -/
theorem generate_secure_moduli_amended :
    (∀ fuel n t start ms, 256 ≤ start →
      generate_secure_moduli_loop n t 255 fuel start = some ms →
      ms.length = n ∧ ms.Pairwise Nat.Coprime ∧ (∀ m ∈ ms, 255 < m)
        ∧ (2 ≤ t → asmuth_bound_ok ms t))
    ∧ (∀ fuel n, generate_secure_moduli n 1 fuel = none) :=
  ⟨fun fuel n t start ms h1 h2 => gen_loop_post fuel n t start ms h1 h2,
   fun fuel n => gen_loop_t1_none fuel n 257 (by norm_num)⟩

/-- Witness for generate_secure_moduli_amended: with (n, t) = (2, 2) one round
from floor 257 returns [257, 258], and the postcondition theorem applies; the
t = 1 branch is instantiated at n = 1 with fuel 5. -/
theorem generate_secure_moduli_amended_witness :
    (generate_secure_moduli_loop 2 2 255 1 257 = some [257, 258]
      ∧ ([257, 258] : List ℕ).length = 2
        ∧ ([257, 258] : List ℕ).Pairwise Nat.Coprime
        ∧ (∀ m ∈ ([257, 258] : List ℕ), 255 < m)
        ∧ (2 ≤ 2 → asmuth_bound_ok [257, 258] 2))
    ∧ generate_secure_moduli 1 1 5 = none :=
  ⟨⟨by decide,
    generate_secure_moduli_amended.1 1 2 2 257 [257, 258] (by norm_num) (by decide)⟩,
   generate_secure_moduli_amended.2 5 1⟩

/-! ## crypto_lattice : config constants, utils.py, ntt.py -/

def Q : ℕ := 8380417

def N : ℕ := 256

def K : ℕ := 2

def L : ℕ := 2

def ETA : ℕ := 2

def BETA : ℕ := 250

def GAMMA2 : ℕ := (Q - 1) / 8

def GAMMA1 : ℕ := (Q - 1) / 2

def TAU : ℕ := 39

/-- Embedding of LatticeUtils.center_mod for scalars: `r = x % q`, then
`r - q` when `r > q // 2`. -/
def center_mod (x q : ℤ) : ℤ :=
  if x % q > q / 2 then x % q - q else x % q

/-- Embedding of the polynomial infinity norm (max absolute coefficient,
accumulated from 0 as in vec_infinity_norm). -/
def infinity_norm (poly : List ℤ) : ℤ :=
  (poly.map (fun c => |c|)).foldl max 0

/-- Embedding of LatticeUtils.vec_infinity_norm. -/
def vec_infinity_norm (vec : List (List ℤ)) : ℤ :=
  vec.foldl (fun mx p => max mx (infinity_norm p)) 0

/-- Embedding of LatticeUtils.decompose: center r mod q, split by alpha with a
centered low part. -/
def decompose (r alpha q : ℤ) : ℤ × ℤ :=
  ((center_mod r q - (if center_mod r q % alpha > alpha / 2
      then center_mod r q % alpha - alpha else center_mod r q % alpha)) / alpha,
   if center_mod r q % alpha > alpha / 2
      then center_mod r q % alpha - alpha else center_mod r q % alpha)

def high_bits (r alpha q : ℤ) : ℤ := (decompose r alpha q).1

def low_bits (r alpha q : ℤ) : ℤ := (decompose r alpha q).2

/-- Embedding of LatticeUtils.poly_add (coefficientwise, mod q). -/
def poly_add (p1 p2 : List ℤ) (q : ℤ) : List ℤ :=
  List.zipWith (fun c1 c2 => (c1 + c2) % q) p1 p2

/-- Embedding of LatticeUtils.poly_sub. -/
def poly_sub (p1 p2 : List ℤ) (q : ℤ) : List ℤ :=
  List.zipWith (fun c1 c2 => (c1 - c2) % q) p1 p2

/-- The coefficient of X^k in the schoolbook negacyclic product of
polymul_rq (ntt.py): the source loops over all index pairs (i, j), reduces
each input coefficient and product mod Q, adds the product into slot i+j when
i+j < N and subtracts it from slot i+j-N otherwise, reducing mod Q after each
accumulation; that stepwise accumulation equals this signed double sum mod Q
(the final mod Q is taken in polymul_rq). -/
def polymul_coeff (a b : List ℤ) (k : ℕ) : ℤ :=
  ((List.range N).map (fun i =>
    ((List.range N).map (fun j =>
      if i + j = k then ((a.getD i 0 % (Q : ℤ)) * (b.getD j 0 % (Q : ℤ))) % (Q : ℤ)
      else if i + j = k + N then
        -(((a.getD i 0 % (Q : ℤ)) * (b.getD j 0 % (Q : ℤ))) % (Q : ℤ))
      else 0)).sum)).sum

/-- Embedding of polymul_rq: the accumulated coefficient mod Q, renormalized
to [0, Q) by the final (x + q) % q pass. -/
def polymul_rq (a b : List ℤ) : List ℤ :=
  (List.range N).map (fun k => (polymul_coeff a b k % (Q : ℤ) + (Q : ℤ)) % (Q : ℤ))

/-! ## signer.py : challenge derivation -/

/-- The digest scan shared by ThresholdSigner._derive_challenge and
SignatureAggregator.derive_challenge: walk the digest bytes, stop once TAU
coefficients are set, place sign (from the low bit of the byte) at position
b mod N, skipping positions already set. -/
def challenge_scan : List ℕ → List ℤ → ℕ → List ℤ
  | [], c, _ => c
  | b :: rest, c, weight =>
      if TAU ≤ weight then c
      else if c.getD (b % N) 0 = 0 then
        challenge_scan rest (c.set (b % N) (if b % 2 = 1 then 1 else -1)) (weight + 1)
      else challenge_scan rest c weight

/-- The challenge polynomial as a function of the SHAKE-256 digest
(N // 2 = 128 bytes in the source). -/
def derive_challenge_from_digest (digest : List ℕ) : List ℤ :=
  challenge_scan digest (List.replicate N 0) 0

/-- 4-byte little-endian signed encoding (int.to_bytes(4, little, signed)),
as the residue mod 2^32 in little-endian byte order. -/
def int_to_bytes4 (x : ℤ) : List ℕ :=
  [(x % 4294967296).toNat % 256, (x % 4294967296).toNat / 256 % 256,
   (x % 4294967296).toNat / 65536 % 256, (x % 4294967296).toNat / 16777216 % 256]

/-- 8-byte little-endian encoding of the timestamp. -/
def int_to_bytes8 (t : ℕ) : List ℕ :=
  (List.range 8).map (fun i => t / 256 ^ i % 256)

/-- The byte string hashed by derive_challenge:
message + w_bytes + t_bytes. -/
def challenge_input (message : List ℕ) (W_HighBits : List (List ℤ))
    (timestamp : ℕ) : List ℕ :=
  message ++ (W_HighBits.map (fun poly => (poly.map int_to_bytes4).flatten)).flatten
    ++ int_to_bytes8 timestamp

/-- Embedding of _derive_challenge / derive_challenge; the SHAKE-256 XOF is an
external library call and is passed in as the digest function H (its output is
the 128-byte digest in the source). -/
def derive_challenge (H : List ℕ → List ℕ) (message : List ℕ)
    (W_HighBits : List (List ℤ)) (timestamp : ℕ) : List ℤ :=
  derive_challenge_from_digest (H (challenge_input message W_HighBits timestamp))

/-- Number of nonzero coefficients of a challenge polynomial. -/
def nonzero_count (c : List ℤ) : ℕ := (c.filter (fun x => x != 0)).length

/-- Number of distinct positions (byte values mod N) named by a digest at
positions whose current entry is still zero. -/
def new_positions (c : List ℤ) (digest : List ℕ) : ℕ :=
  (((digest.map (fun b => b % N)).filter (fun i => c.getD i 0 == 0)).toFinset).card

theorem getD_set_self {c : List ℤ} {i : ℕ} {v : ℤ} (h : i < c.length) :
    (c.set i v).getD i 0 = v := by
  simp [List.getD_eq_getElem?_getD, List.getElem?_set_self h]

theorem getD_set_ne {c : List ℤ} {i j : ℕ} {v : ℤ} (h : i ≠ j) :
    (c.set i v).getD j 0 = c.getD j 0 := by
  simp [List.getD_eq_getElem?_getD, List.getElem?_set_ne h]

theorem getD_replicate_zero (n i : ℕ) : (List.replicate n (0 : ℤ)).getD i 0 = 0 := by
  rw [List.getD_eq_getElem?_getD, List.getElem?_replicate]
  by_cases h : i < n <;> simp [h]

theorem nonzero_count_cons (x : ℤ) (t : List ℤ) :
    nonzero_count (x :: t) = (if x ≠ 0 then 1 else 0) + nonzero_count t := by
  unfold nonzero_count
  rw [List.filter_cons]
  by_cases hx : x ≠ 0
  · simp [hx]; omega
  · simp [hx]

theorem nonzero_count_set {c : List ℤ} {i : ℕ} {v : ℤ} (hi : i < c.length)
    (h0 : c.getD i 0 = 0) (hv : v ≠ 0) :
    nonzero_count (c.set i v) = nonzero_count c + 1 := by
  induction c generalizing i with
  | nil => simp at hi
  | cons x xs ih =>
      cases i with
      | zero =>
          have hx : x = 0 := by simpa using h0
          subst hx
          rw [List.set_cons_zero, nonzero_count_cons, nonzero_count_cons]
          simp [hv]
          omega
      | succ i =>
          have hi' : i < xs.length := by simpa using hi
          have h0' : xs.getD i 0 = 0 := by simpa using h0
          rw [List.set_cons_succ, nonzero_count_cons, nonzero_count_cons,
            ih hi' h0']
          omega

theorem challenge_scan_entries : ∀ (digest : List ℕ) (c : List ℤ) (w : ℕ),
    (∀ x ∈ c, x = 0 ∨ x = 1 ∨ x = -1) →
    ∀ x ∈ challenge_scan digest c w, x = 0 ∨ x = 1 ∨ x = -1 := by
  intro digest
  induction digest with
  | nil => intro c w h; exact h
  | cons b rest ih =>
      intro c w h
      unfold challenge_scan
      by_cases hw : TAU ≤ w
      · rw [if_pos hw]; exact h
      · rw [if_neg hw]
        by_cases h0 : c.getD (b % N) 0 = 0
        · rw [if_pos h0]
          apply ih
          intro x hx
          rcases List.mem_or_eq_of_mem_set hx with hx | hx
          · exact h x hx
          · subst hx
            by_cases hb : b % 2 = 1 <;> simp [hb]
        · rw [if_neg h0]
          exact ih c w h

theorem challenge_scan_parity : ∀ (digest : List ℕ) (c : List ℤ) (w : ℕ),
    (∀ i, c.getD i 0 ≠ 0 → c.getD i 0 = (if i % 2 = 1 then 1 else -1)) →
    ∀ i, (challenge_scan digest c w).getD i 0 ≠ 0 →
      (challenge_scan digest c w).getD i 0 = (if i % 2 = 1 then 1 else -1) := by
  intro digest
  induction digest with
  | nil => intro c w h; exact h
  | cons b rest ih =>
      intro c w h
      unfold challenge_scan
      by_cases hw : TAU ≤ w
      · rw [if_pos hw]; exact h
      · rw [if_neg hw]
        by_cases h0 : c.getD (b % N) 0 = 0
        · rw [if_pos h0]
          apply ih
          intro i hi
          by_cases hlen : b % N < c.length
          · by_cases hib : i = b % N
            · subst hib
              rw [getD_set_self hlen] at hi ⊢
              have hpar : (b % N) % 2 = b % 2 := by
                unfold N
                exact Nat.mod_mod_of_dvd b (by norm_num)
              rw [hpar]
            · rw [getD_set_ne (fun hcon => hib hcon.symm)] at hi ⊢
              exact h i hi
          · rw [List.set_eq_of_length_le (by omega)] at hi ⊢
            exact h i hi
        · rw [if_neg h0]
          exact ih c w h

theorem new_positions_cons_skip {c : List ℤ} {b : ℕ} {rest : List ℕ}
    (h0 : c.getD (b % N) 0 ≠ 0) :
    new_positions c (b :: rest) = new_positions c rest := by
  unfold new_positions
  rw [List.map_cons, List.filter_cons]
  have : (c.getD (b % N) 0 == 0) = false := by
    simpa using h0
  rw [this]
  simp

theorem new_positions_cons_set {c : List ℤ} {b : ℕ} {rest : List ℕ} {v : ℤ}
    (hN : c.length = N) (h0 : c.getD (b % N) 0 = 0) (hv : v ≠ 0) :
    new_positions c (b :: rest) = 1 + new_positions (c.set (b % N) v) rest := by
  have hlt : b % N < c.length := by
    rw [hN]; exact Nat.mod_lt b (by unfold N; norm_num)
  unfold new_positions
  rw [List.map_cons, List.filter_cons]
  have hp : (c.getD (b % N) 0 == 0) = true := by simpa using h0
  rw [hp]
  simp only [if_true]
  -- the filtered positions for the updated c are those for c, minus b % N
  have hfilt : (rest.map (fun x => x % N)).filter
        (fun i => (c.set (b % N) v).getD i 0 == 0)
      = ((rest.map (fun x => x % N)).filter (fun i => c.getD i 0 == 0)).filter
          (fun i => i != b % N) := by
    rw [List.filter_filter]
    apply List.filter_congr
    intro i _
    by_cases hib : i = b % N
    · subst hib
      rw [getD_set_self hlt]
      simp [hv]
    · rw [getD_set_ne (fun hcon => hib hcon.symm)]
      simp [hib]
  rw [hfilt]
  set S := ((rest.map (fun x => x % N)).filter (fun i => c.getD i 0 == 0)) with hS
  rw [List.toFinset_cons]
  have herase : (S.filter (fun i => i != b % N)).toFinset = S.toFinset.erase (b % N) := by
    rw [List.toFinset_filter]
    ext a
    simp only [Finset.mem_filter, Finset.mem_erase, List.mem_toFinset]
    constructor
    · rintro ⟨ha, hne⟩
      exact ⟨by simpa using hne, ha⟩
    · rintro ⟨hne, ha⟩
      exact ⟨ha, by simpa using hne⟩
  rw [herase]
  by_cases hmem : b % N ∈ S.toFinset
  · rw [Finset.insert_eq_self.mpr hmem]
    rw [Finset.card_erase_of_mem hmem]
    have : 1 ≤ S.toFinset.card := Finset.card_pos.mpr ⟨_, hmem⟩
    omega
  · rw [Finset.card_insert_of_not_mem hmem, Finset.erase_eq_of_not_mem hmem]
    omega

theorem challenge_scan_count : ∀ (digest : List ℕ) (c : List ℤ) (w : ℕ),
    c.length = N → nonzero_count c = w → w ≤ TAU →
    nonzero_count (challenge_scan digest c w)
      = min TAU (w + new_positions c digest) := by
  intro digest
  induction digest with
  | nil =>
      intro c w hN hc hw
      unfold challenge_scan new_positions
      simp only [List.map_nil, List.filter_nil, List.toFinset_nil, Finset.card_empty,
        Nat.add_zero]
      omega
  | cons b rest ih =>
      intro c w hN hc hw
      unfold challenge_scan
      by_cases hwt : TAU ≤ w
      · rw [if_pos hwt]
        omega
      · rw [if_neg hwt]
        by_cases h0 : c.getD (b % N) 0 = 0
        · rw [if_pos h0]
          have hlt : b % N < c.length := by
            rw [hN]; exact Nat.mod_lt b (by unfold N; norm_num)
          have hv : (if b % 2 = 1 then (1 : ℤ) else -1) ≠ 0 := by
            by_cases hb : b % 2 = 1 <;> simp [hb]
          have hcount : nonzero_count (c.set (b % N) (if b % 2 = 1 then 1 else -1))
              = w + 1 := by
            rw [nonzero_count_set hlt h0 hv, hc]
          have hres := ih (c.set (b % N) (if b % 2 = 1 then 1 else -1)) (w + 1)
            (by rw [List.length_set]; exact hN) hcount (by omega)
          rw [hres, new_positions_cons_set hN h0 hv]
          omega
        · rw [if_neg h0]
          rw [ih c w hN hc (by omega), new_positions_cons_skip h0]

theorem derive_challenge_from_digest_count (digest : List ℕ) :
    nonzero_count (derive_challenge_from_digest digest)
      = min TAU ((digest.map (fun b => b % N)).toFinset.card) := by
  unfold derive_challenge_from_digest
  have hcount : nonzero_count (List.replicate N (0 : ℤ)) = 0 := by
    unfold nonzero_count
    rw [List.filter_eq_nil_iff.mpr]
    · rfl
    · intro a ha
      rw [List.eq_of_mem_replicate ha]
      simp
  have h := challenge_scan_count digest (List.replicate N 0) 0
    (List.length_replicate _ _) hcount (by unfold TAU; omega)
  rw [h]
  have hfull : ((digest.map (fun b => b % N)).filter
      (fun i => (List.replicate N (0 : ℤ)).getD i 0 == 0))
      = digest.map (fun b => b % N) := by
    apply List.filter_eq_self.mpr
    intro a _
    rw [getD_replicate_zero]
    simp
  unfold new_positions
  rw [hfull]
  omega

/-- Counterexample to C7: the challenge polynomial does not always have
exactly TAU = 39 nonzero coefficients: a digest whose bytes name fewer than
39 distinct positions (here the all-zero 128-byte digest) yields a challenge
with a single nonzero coefficient. -/
theorem derive_challenge_tau_counterexample :
    nonzero_count (derive_challenge (fun _ => List.replicate 128 0) [] [] 0) = 1
    ∧ nonzero_count (derive_challenge (fun _ => List.replicate 128 0) [] [] 0)
        ≠ TAU := by
  constructor
  · decide
  · decide

/-- C7 (amended): for every message, high-bits input and timestamp (the
SHAKE-256 XOF being modelled as an arbitrary digest function H), every
nonzero coefficient of the derived challenge is +1 or -1, and the number of
nonzero coefficients equals min(TAU, number of distinct positions b mod N
named by the 128-byte digest) - in particular it is at most TAU, and exactly
TAU whenever the digest names at least TAU distinct positions. -/
theorem derive_challenge_shape (H : List ℕ → List ℕ) (message : List ℕ)
    (W : List (List ℤ)) (ts : ℕ) :
    (∀ x ∈ derive_challenge H message W ts, x = 0 ∨ x = 1 ∨ x = -1)
    ∧ nonzero_count (derive_challenge H message W ts)
        = min TAU (((H (challenge_input message W ts)).map
            (fun b => b % N)).toFinset.card) := by
  constructor
  · apply challenge_scan_entries
    intro x hx
    rw [List.eq_of_mem_replicate hx]
    exact Or.inl rfl
  · exact derive_challenge_from_digest_count _

/-- C10: in every derived challenge the sign of a nonzero coefficient is
determined by the parity of its index: the coefficient at an even index is
-1 and at an odd index is +1, because the position is the digest byte itself
(idx = b mod 256) and the sign is the low bit of the same byte. -/
theorem derive_challenge_parity (H : List ℕ → List ℕ) (message : List ℕ)
    (W : List (List ℤ)) (ts : ℕ) (i : ℕ)
    (h : (derive_challenge H message W ts).getD i 0 ≠ 0) :
    (derive_challenge H message W ts).getD i 0 = (if i % 2 = 1 then 1 else -1) := by
  refine challenge_scan_parity _ _ _ ?_ i h
  intro j hj
  rw [getD_replicate_zero] at hj
  exact absurd rfl hj

/-- Witness for derive_challenge_parity: a digest byte 2 puts coefficient -1
at the even index 2. -/
theorem derive_challenge_parity_witness :
    (derive_challenge (fun _ => [2]) [] [] 0).getD 2 0 ≠ 0
    ∧ (derive_challenge (fun _ => [2]) [] [] 0).getD 2 0
        = (if 2 % 2 = 1 then 1 else -1) :=
  ⟨by decide, derive_challenge_parity (fun _ => [2]) [] [] 0 2 (by decide)⟩

/-! ## signer.py : threshold protocol -/

/-- Embedding of the shared _matrix_vec_mul: row i is the plain (unreduced)
elementwise sum of polymul_rq(matrix[i][j], vec[j]) over j. -/
def matrix_vec_mul (matrix : List (List (List ℤ))) (vec : List (List ℤ)) :
    List (List ℤ) :=
  matrix.map (fun row =>
    (List.zipWith (fun aij vj => polymul_rq aij vj) row vec).foldl
      (List.zipWith (· + ·)) (List.replicate N 0))

/-- Embedding of ThresholdSigner.phase2_response.  The party state (its key
share s1/s2 and the phase-1 masking vector y, sampled within
plus/minus GAMMA1 >> 3) and the expanded public matrix A are explicit
arguments; H is the SHAKE-256 digest function.  None models the two
rejection-sampling exits. -/
def phase2_response (H : List ℕ → List ℕ) (A : List (List (List ℤ)))
    (s1 s2 : List (List ℤ)) (y : List (List ℤ)) (global_Ay_sum : List (List ℤ))
    (message : List ℕ) (timestamp : ℕ) : Option (List (List ℤ)) :=
  if vec_infinity_norm
      ((List.zipWith (fun yj csj => poly_add yj csj (Q : ℤ)) y
        (s1.map (fun s_poly => polymul_rq
          (derive_challenge H message
            (global_Ay_sum.map (fun poly =>
              poly.map (fun c => high_bits c (2 * (GAMMA2 : ℤ)) (Q : ℤ)))) timestamp)
          s_poly))).map (fun p => p.map (fun c => center_mod c (Q : ℤ))))
      ≥ (GAMMA1 : ℤ) - (BETA : ℤ) then none
  else if
    (List.zipWith (fun p1 p2 => poly_sub p1 p2 (Q : ℤ)) (matrix_vec_mul A y)
        (s2.map (fun e_poly => polymul_rq
          (derive_challenge H message
            (global_Ay_sum.map (fun poly =>
              poly.map (fun c => high_bits c (2 * (GAMMA2 : ℤ)) (Q : ℤ)))) timestamp)
          e_poly))).foldl
      (fun mx poly => max mx (infinity_norm
        (poly.map (fun c => low_bits (center_mod c (Q : ℤ)) (2 * (GAMMA2 : ℤ)) (Q : ℤ))))) 0
      ≥ (GAMMA2 : ℤ) - (BETA : ℤ) then none
  else some
    (List.zipWith (fun yj csj => poly_add yj csj (Q : ℤ)) y
      (s1.map (fun s_poly => polymul_rq
        (derive_challenge H message
          (global_Ay_sum.map (fun poly =>
            poly.map (fun c => high_bits c (2 * (GAMMA2 : ℤ)) (Q : ℤ)))) timestamp)
        s_poly)))

/-- Embedding of SignatureAggregator.aggregate_responses: None only for an
empty collection, otherwise the plain elementwise sum of all responses (no
mod-Q reduction, no threshold check). -/
def aggregate_responses (z_shares : List (List (List ℤ))) :
    Option (List (List ℤ)) :=
  if z_shares.isEmpty then none
  else some (z_shares.foldl
    (fun acc z => List.zipWith (List.zipWith (· + ·)) acc z)
    (List.replicate (z_shares.headD []).length
      (List.replicate ((z_shares.headD []).headD []).length 0)))

/-- Embedding of SignatureAggregator.verify_final_signature: norm check on the
centered aggregate, then (with a signer-supplied W_sum) the hash-consistency
check of the challenge recomputed from HighBits(W_sum); without W_sum the
backup from-scratch AZ - CT path. -/
def verify_final_signature (H : List ℕ → List ℕ) (Z : List (List ℤ))
    (C_poly : List ℤ) (T_pub : List (List ℤ)) (A_matrix : List (List (List ℤ)))
    (message : List ℕ) (timestamp : ℕ) (W_sum : Option (List (List ℤ))) : Bool :=
  if vec_infinity_norm (Z.map (fun p => p.map (fun c => center_mod c (Q : ℤ))))
      ≥ (GAMMA1 : ℤ) - (BETA : ℤ) then false
  else
    match W_sum with
    | some w_sum =>
        derive_challenge H message
          (w_sum.map (fun poly =>
            poly.map (fun c => high_bits c (2 * (GAMMA2 : ℤ)) (Q : ℤ)))) timestamp
          == C_poly
    | none =>
        derive_challenge H message
          (((List.zipWith (fun az ct => poly_sub az ct (Q : ℤ))
              (matrix_vec_mul A_matrix Z)
              (T_pub.map (fun t_poly => polymul_rq C_poly t_poly))).map
            (fun p => p.map (fun c => center_mod c (Q : ℤ)))).map
            (fun poly => poly.map (fun c => high_bits c (2 * (GAMMA2 : ℤ)) (Q : ℤ))))
          timestamp == C_poly

set_option maxRecDepth 10000 in
/-- Counterexample to C5: a single accepted response (below the t = 3
threshold) is aggregated without any explicit failure: aggregate_responses
returns the summed value. -/
theorem aggregate_below_threshold_counterexample :
    ([List.replicate L (List.replicate N (0 : ℤ))].length < T_THRESHOLD)
    ∧ aggregate_responses [List.replicate L (List.replicate N (0 : ℤ))]
        = some (List.replicate L (List.replicate N 0)) := by
  constructor
  · decide
  · decide

/-- C5 (amended): aggregate_responses checks only for emptiness: it returns
None exactly on the empty collection, and silently sums any non-empty
collection of responses, including collections below the threshold t. -/
theorem aggregate_responses_amended (z_shares : List (List (List ℤ))) :
    aggregate_responses z_shares = none ↔ z_shares = [] := by
  cases z_shares with
  | nil => simp [aggregate_responses]
  | cons z rest => simp [aggregate_responses]

/-! ### center_mod and polymul toolkit -/

theorem Q_cast : ((Q : ℕ) : ℤ) = 8380417 := by unfold Q; norm_num

theorem center_mod_modeq (x q : ℤ) : center_mod x q ≡ x [ZMOD q] := by
  unfold center_mod
  split
  · calc x % q - q ≡ x % q - 0 [ZMOD q] :=
          Int.ModEq.sub (Int.ModEq.refl _) (Int.modEq_zero_iff_dvd.mpr dvd_rfl)
      _ = x % q := by ring
      _ ≡ x [ZMOD q] := Int.emod_emod_of_dvd _ dvd_rfl
  · exact Int.emod_emod_of_dvd _ dvd_rfl

theorem center_mod_Q_range (x : ℤ) :
    -4190208 ≤ center_mod x (Q : ℤ) ∧ center_mod x (Q : ℤ) ≤ 4190208 := by
  unfold center_mod
  rw [Q_cast]
  have h0 : 0 ≤ x % (8380417 : ℤ) := Int.emod_nonneg x (by norm_num)
  have h1 : x % (8380417 : ℤ) < 8380417 := Int.emod_lt_of_pos x (by norm_num)
  have hdiv : (8380417 : ℤ) / 2 = 4190208 := by norm_num
  rw [hdiv]
  split <;> omega

theorem center_mod_eq_of_modeq {x v : ℤ} (h : x ≡ v [ZMOD (Q : ℤ)])
    (hv : |v| ≤ 4190208) : center_mod x (Q : ℤ) = v := by
  have hc : center_mod x (Q : ℤ) ≡ v [ZMOD (Q : ℤ)] :=
    (center_mod_modeq x _).trans h
  have hdvd : ((Q : ℕ) : ℤ) ∣ (center_mod x (Q : ℤ) - v) :=
    Int.ModEq.dvd hc.symm
  have hrange := center_mod_Q_range x
  have hq := Q_cast
  have habs : |center_mod x (Q : ℤ) - v| < ((Q : ℕ) : ℤ) := by
    rw [abs_le] at hv
    rw [abs_lt]
    omega
  have h0 := Int.eq_zero_of_abs_lt_dvd hdvd habs
  omega

theorem sum_modeq_of_forall {q : ℤ} {l : List ℕ} {f g : ℕ → ℤ}
    (h : ∀ x ∈ l, f x ≡ g x [ZMOD q]) :
    (l.map f).sum ≡ (l.map g).sum [ZMOD q] := by
  induction l with
  | nil => rfl
  | cons a t ih =>
      simp only [List.map_cons, List.sum_cons]
      exact (h a (List.mem_cons_self a t)).add
        (ih (fun x hx => h x (List.mem_cons_of_mem a hx)))

theorem list_range_map_sum (n : ℕ) (f : ℕ → ℤ) :
    ((List.range n).map f).sum = ∑ j in Finset.range n, f j := by
  induction n with
  | zero => simp
  | succ n ih =>
      rw [List.range_succ, List.map_append, List.sum_append,
        Finset.sum_range_succ, ih]
      simp

theorem getD_abs_le {b : List ℤ} {eta : ℤ} (heta : 0 ≤ eta)
    (hb : ∀ x ∈ b, |x| ≤ eta) (j : ℕ) : |b.getD j 0| ≤ eta := by
  by_cases hj : j < b.length
  · have hmem : b.getD j 0 ∈ b := by
      rw [List.getD_eq_getElem?_getD, List.getElem?_eq_getElem hj]
      exact List.getElem_mem _
    exact hb _ hmem
  · rw [List.getD_eq_getElem?_getD, List.getElem?_eq_none (by omega)]
    simpa using heta

theorem sum_ite_single (f : ℕ → ℤ) (n j0 : ℕ) (hj0 : j0 < n)
    (h : ∀ j, j < n → j ≠ j0 → f j = 0) :
    ∑ j in Finset.range n, f j = f j0 :=
  Finset.sum_eq_single_of_mem j0 (Finset.mem_range.mpr hj0)
    (fun j hj hne => h j (Finset.mem_range.mp hj) hne)

/-- The plain (unreduced) negacyclic coefficient. -/
def polymul_plain (a b : List ℤ) (k : ℕ) : ℤ :=
  ((List.range N).map (fun i =>
    ((List.range N).map (fun j =>
      if i + j = k then a.getD i 0 * b.getD j 0
      else if i + j = k + N then -(a.getD i 0 * b.getD j 0)
      else 0)).sum)).sum

theorem polymul_coeff_modeq (a b : List ℤ) (k : ℕ) :
    polymul_coeff a b k ≡ polymul_plain a b k [ZMOD ((Q : ℕ) : ℤ)] := by
  unfold polymul_coeff polymul_plain
  apply sum_modeq_of_forall
  intro i _
  apply sum_modeq_of_forall
  intro j _
  by_cases h1 : i + j = k
  · rw [if_pos h1, if_pos h1]
    calc ((a.getD i 0 % (Q : ℤ)) * (b.getD j 0 % (Q : ℤ))) % (Q : ℤ)
        ≡ (a.getD i 0 % (Q : ℤ)) * (b.getD j 0 % (Q : ℤ)) [ZMOD (Q : ℤ)] :=
          Int.emod_emod_of_dvd _ dvd_rfl
      _ ≡ a.getD i 0 * b.getD j 0 [ZMOD (Q : ℤ)] :=
          Int.ModEq.mul (Int.emod_emod_of_dvd _ dvd_rfl) (Int.emod_emod_of_dvd _ dvd_rfl)
  · rw [if_neg h1, if_neg h1]
    by_cases h2 : i + j = k + N
    · rw [if_pos h2, if_pos h2]
      refine Int.ModEq.neg ?_
      calc ((a.getD i 0 % (Q : ℤ)) * (b.getD j 0 % (Q : ℤ))) % (Q : ℤ)
          ≡ (a.getD i 0 % (Q : ℤ)) * (b.getD j 0 % (Q : ℤ)) [ZMOD (Q : ℤ)] :=
            Int.emod_emod_of_dvd _ dvd_rfl
        _ ≡ a.getD i 0 * b.getD j 0 [ZMOD (Q : ℤ)] :=
            Int.ModEq.mul (Int.emod_emod_of_dvd _ dvd_rfl)
              (Int.emod_emod_of_dvd _ dvd_rfl)
    · rw [if_neg h2, if_neg h2]

theorem polymul_plain_eval (a b : List ℤ) {k : ℕ} (hk : k < N) :
    polymul_plain a b k = ∑ i in Finset.range N,
      (if i ≤ k then a.getD i 0 * b.getD (k - i) 0
       else -(a.getD i 0 * b.getD (k + N - i) 0)) := by
  have hN : N = 256 := rfl
  unfold polymul_plain
  rw [list_range_map_sum]
  apply Finset.sum_congr rfl
  intro i hi
  rw [Finset.mem_range] at hi
  rw [list_range_map_sum]
  by_cases hik : i ≤ k
  · rw [if_pos hik]
    have hsingle := sum_ite_single
      (fun j => if i + j = k then a.getD i 0 * b.getD j 0
        else if i + j = k + N then -(a.getD i 0 * b.getD j 0) else 0)
      N (k - i) (by omega)
      (fun j hj hne => by
        simp only []
        rw [if_neg (by omega), if_neg (by omega)])
    rw [hsingle]
    simp only []
    rw [if_pos (by omega)]
  · rw [if_neg hik]
    have hsingle := sum_ite_single
      (fun j => if i + j = k then a.getD i 0 * b.getD j 0
        else if i + j = k + N then -(a.getD i 0 * b.getD j 0) else 0)
      N (k + N - i) (by omega)
      (fun j hj hne => by
        simp only []
        rw [if_neg (by omega), if_neg (by omega)])
    rw [hsingle]
    simp only []
    rw [if_neg (by omega), if_pos (by omega)]

theorem polymul_plain_bound {a b : List ℤ} {eta : ℤ} (heta : 0 ≤ eta)
    (hb : ∀ x ∈ b, |x| ≤ eta) {k : ℕ} (hk : k < N) :
    |polymul_plain a b k| ≤ (∑ i in Finset.range N, |a.getD i 0|) * eta := by
  rw [polymul_plain_eval a b hk]
  calc |∑ i in Finset.range N, (if i ≤ k then a.getD i 0 * b.getD (k - i) 0
          else -(a.getD i 0 * b.getD (k + N - i) 0))|
      ≤ ∑ i in Finset.range N, |(if i ≤ k then a.getD i 0 * b.getD (k - i) 0
          else -(a.getD i 0 * b.getD (k + N - i) 0))| :=
        Finset.abs_sum_le_sum_abs _ _
    _ ≤ ∑ i in Finset.range N, |a.getD i 0| * eta := by
        apply Finset.sum_le_sum
        intro i _
        by_cases hik : i ≤ k
        · rw [if_pos hik, abs_mul]
          exact mul_le_mul_of_nonneg_left (getD_abs_le heta hb _) (abs_nonneg _)
        · rw [if_neg hik, abs_neg, abs_mul]
          exact mul_le_mul_of_nonneg_left (getD_abs_le heta hb _) (abs_nonneg _)
    _ = (∑ i in Finset.range N, |a.getD i 0|) * eta := by
        rw [Finset.sum_mul]

theorem challenge_scan_length : ∀ (digest : List ℕ) (c : List ℤ) (w : ℕ),
    (challenge_scan digest c w).length = c.length := by
  intro digest
  induction digest with
  | nil => intro c w; rfl
  | cons b rest ih =>
      intro c w
      unfold challenge_scan
      by_cases hw : TAU ≤ w
      · rw [if_pos hw]
      · rw [if_neg hw]
        by_cases h0 : c.getD (b % N) 0 = 0
        · rw [if_pos h0, ih, List.length_set]
        · rw [if_neg h0, ih]

theorem range_getD_abs_sum : ∀ (c : List ℤ),
    ((List.range c.length).map (fun i => |c.getD i 0|)).sum
      = (c.map (fun x => |x|)).sum := by
  intro c
  induction c with
  | nil => rfl
  | cons x xs ih =>
      rw [List.length_cons, List.range_succ_eq_map, List.map_cons, List.sum_cons,
        List.map_map, List.map_cons, List.sum_cons]
      have hcomp : ((fun i => |(x :: xs).getD i 0|) ∘ Nat.succ)
          = (fun i => |xs.getD i 0|) := by
        funext i
        simp
      rw [hcomp, ih]
      simp

theorem abs_sum_eq_nonzero_count : ∀ {c : List ℤ},
    (∀ x ∈ c, x = 0 ∨ x = 1 ∨ x = -1) →
    (c.map (fun x => |x|)).sum = (nonzero_count c : ℤ) := by
  intro c
  induction c with
  | nil => intro _; rfl
  | cons x xs ih =>
      intro h
      rw [List.map_cons, List.sum_cons, nonzero_count_cons,
        ih (fun a ha => h a (List.mem_cons_of_mem x ha))]
      rcases h x (List.mem_cons_self x xs) with hx | hx | hx <;> subst hx <;> simp

theorem challenge_abs_sum_le (digest : List ℕ) :
    ∑ i in Finset.range N, |(derive_challenge_from_digest digest).getD i 0|
      ≤ (TAU : ℤ) := by
  have hlen : (derive_challenge_from_digest digest).length = N := by
    unfold derive_challenge_from_digest
    rw [challenge_scan_length, List.length_replicate]
  have hent : ∀ x ∈ derive_challenge_from_digest digest, x = 0 ∨ x = 1 ∨ x = -1 := by
    apply challenge_scan_entries
    intro x hx
    rw [List.eq_of_mem_replicate hx]
    exact Or.inl rfl
  have hcount := derive_challenge_from_digest_count digest
  calc ∑ i in Finset.range N, |(derive_challenge_from_digest digest).getD i 0|
      = (((List.range N).map
          (fun i => |(derive_challenge_from_digest digest).getD i 0|)).sum) :=
        (list_range_map_sum _ _).symm
    _ = ((derive_challenge_from_digest digest).map (fun x => |x|)).sum := by
        rw [← hlen, range_getD_abs_sum]
    _ = (nonzero_count (derive_challenge_from_digest digest) : ℤ) :=
        abs_sum_eq_nonzero_count hent
    _ ≤ (TAU : ℤ) := by
        rw [hcount]
        exact_mod_cast Nat.min_le_left _ _

theorem getD_eq_getElem {α : Type} {l : List α} {j : ℕ} (d : α) (h : j < l.length) :
    l.getD j d = l[j] := by
  rw [List.getD_eq_getElem?_getD, List.getElem?_eq_getElem h]
  rfl

theorem zipWith_getD {α β γ : Type} (f : α → β → γ) (a : List α) (b : List β)
    (da : α) (db : β) (dg : γ) : ∀ {i : ℕ}, i < a.length → i < b.length →
    (List.zipWith f a b).getD i dg = f (a.getD i da) (b.getD i db) := by
  induction a generalizing b with
  | nil => intro i hi _; simp at hi
  | cons x xs ih =>
      intro i hi hib
      cases b with
      | nil => simp at hib
      | cons v vs =>
          cases i with
          | zero => rfl
          | succ i =>
              rw [List.zipWith_cons_cons]
              simp only [List.getD_cons_succ]
              exact ih vs (by simpa using hi) (by simpa using hib)

theorem range_map_getD (f : ℕ → ℤ) {n k : ℕ} (hk : k < n) :
    ((List.range n).map f).getD k 0 = f k := by
  rw [List.getD_eq_getElem?_getD, List.getElem?_map, List.getElem?_range hk]
  rfl

theorem polymul_rq_length (a b : List ℤ) : (polymul_rq a b).length = N := by
  unfold polymul_rq
  rw [List.length_map, List.length_range]

theorem polymul_rq_getD (a b : List ℤ) {k : ℕ} (hk : k < N) :
    (polymul_rq a b).getD k 0
      = (polymul_coeff a b k % ((Q : ℕ) : ℤ) + ((Q : ℕ) : ℤ)) % ((Q : ℕ) : ℤ) := by
  unfold polymul_rq
  exact range_map_getD _ hk

theorem polymul_rq_getD_modeq (a b : List ℤ) {k : ℕ} (hk : k < N) :
    (polymul_rq a b).getD k 0 ≡ polymul_plain a b k [ZMOD ((Q : ℕ) : ℤ)] := by
  rw [polymul_rq_getD a b hk]
  have h1 : (polymul_coeff a b k % ((Q : ℕ) : ℤ) + ((Q : ℕ) : ℤ)) % ((Q : ℕ) : ℤ)
      ≡ polymul_coeff a b k % ((Q : ℕ) : ℤ) + ((Q : ℕ) : ℤ) [ZMOD ((Q : ℕ) : ℤ)] :=
    Int.emod_emod_of_dvd _ dvd_rfl
  have h2 : polymul_coeff a b k % ((Q : ℕ) : ℤ) + ((Q : ℕ) : ℤ)
      ≡ polymul_coeff a b k + 0 [ZMOD ((Q : ℕ) : ℤ)] :=
    Int.ModEq.add (Int.emod_emod_of_dvd _ dvd_rfl)
      (Int.modEq_zero_iff_dvd.mpr dvd_rfl)
  have h2' : polymul_coeff a b k % ((Q : ℕ) : ℤ) + ((Q : ℕ) : ℤ)
      ≡ polymul_coeff a b k [ZMOD ((Q : ℕ) : ℤ)] := by simpa using h2
  exact h1.trans (h2'.trans (polymul_coeff_modeq a b k))

theorem phase2_response_some {H : List ℕ → List ℕ} {A : List (List (List ℤ))}
    {s1 s2 y W_sum : List (List ℤ)} {message : List ℕ} {timestamp : ℕ}
    {z : List (List ℤ)}
    (h : phase2_response H A s1 s2 y W_sum message timestamp = some z) :
    z = List.zipWith (fun yj csj => poly_add yj csj (Q : ℤ)) y
      (s1.map (fun s_poly => polymul_rq
        (derive_challenge H message
          (W_sum.map (fun poly =>
            poly.map (fun c => high_bits c (2 * (GAMMA2 : ℤ)) (Q : ℤ)))) timestamp)
        s_poly)) := by
  unfold phase2_response at h
  split at h
  · cases h
  · split at h
    · cases h
    · exact (Option.some_inj.mp h).symm

theorem foldl_max_lt {B : ℤ} : ∀ (l : List ℤ) (acc : ℤ), acc < B →
    (∀ x ∈ l, x < B) → l.foldl max acc < B := by
  intro l
  induction l with
  | nil => intro acc hacc _; exact hacc
  | cons x xs ih =>
      intro acc hacc h
      rw [List.foldl_cons]
      exact ih _ (max_lt hacc (h x (List.mem_cons_self x xs)))
        (fun a ha => h a (List.mem_cons_of_mem x ha))

theorem infinity_norm_lt {poly : List ℤ} {B : ℤ} (hB : 0 < B)
    (h : ∀ x ∈ poly, |x| < B) : infinity_norm poly < B := by
  unfold infinity_norm
  apply foldl_max_lt _ _ hB
  intro x hx
  obtain ⟨a, ha, rfl⟩ := List.mem_map.mp hx
  exact h a ha

theorem vec_infinity_norm_lt {v : List (List ℤ)} {B : ℤ} (hB : 0 < B)
    (h : ∀ p ∈ v, infinity_norm p < B) : vec_infinity_norm v < B := by
  unfold vec_infinity_norm
  have hfold : v.foldl (fun mx p => max mx (infinity_norm p)) 0
      = (v.map infinity_norm).foldl max 0 := by
    rw [List.foldl_map]
  rw [hfold]
  apply foldl_max_lt _ _ hB
  intro x hx
  obtain ⟨p, hp, rfl⟩ := List.mem_map.mp hx
  exact h p hp

theorem sum_bound_modeq {q B : ℤ} :
    ∀ {zs : List (List (List ℤ))} {j k : ℕ},
    (∀ z ∈ zs, ∃ v : ℤ, (z.getD j []).getD k 0 ≡ v [ZMOD q] ∧ |v| ≤ B) →
    ∃ v : ℤ, (zs.map (fun z => (z.getD j []).getD k 0)).sum ≡ v [ZMOD q]
      ∧ |v| ≤ zs.length * B := by
  intro zs
  induction zs with
  | nil =>
      intro j k _
      exact ⟨0, by simp [Int.ModEq.refl], by simp⟩
  | cons z rest ih =>
      intro j k h
      obtain ⟨v, hv, hvb⟩ := h z (List.mem_cons_self z rest)
      obtain ⟨w, hw, hwb⟩ := ih (fun z' hz' => h z' (List.mem_cons_of_mem z hz'))
      refine ⟨v + w, ?_, ?_⟩
      · rw [List.map_cons, List.sum_cons]
        exact hv.add hw
      · calc |v + w| ≤ |v| + |w| := abs_add _ _
          _ ≤ B + rest.length * B := by omega
          _ = (z :: rest).length * B := by
              rw [List.length_cons]
              push_cast
              ring

theorem foldl_zipadd_shape_getD :
    ∀ (zs : List (List (List ℤ))) (init : List (List ℤ)) (L0 N0 : ℕ),
    init.length = L0 → (∀ p ∈ init, p.length = N0) →
    (∀ z ∈ zs, z.length = L0 ∧ ∀ p ∈ z, p.length = N0) →
    (zs.foldl (fun acc z => List.zipWith (List.zipWith (· + ·)) acc z) init).length = L0
    ∧ (∀ p ∈ zs.foldl (fun acc z => List.zipWith (List.zipWith (· + ·)) acc z) init,
        p.length = N0)
    ∧ (∀ j k, j < L0 → k < N0 →
        (((zs.foldl (fun acc z => List.zipWith (List.zipWith (· + ·)) acc z) init).getD
            j []).getD k 0)
          = (init.getD j []).getD k 0
            + (zs.map (fun z => (z.getD j []).getD k 0)).sum) := by
  intro zs
  induction zs with
  | nil =>
      intro init L0 N0 hlen hrow _
      refine ⟨hlen, hrow, ?_⟩
      intro j k _ _
      simp
  | cons z rest ih =>
      intro init L0 N0 hlen hrow hall
      obtain ⟨hzlen, hzrow⟩ := hall z (List.mem_cons_self z rest)
      have hstep_len : (List.zipWith (List.zipWith (· + ·)) init z).length = L0 := by
        rw [List.length_zipWith, hlen, hzlen, Nat.min_self]
      have hstep_row : ∀ p ∈ List.zipWith (List.zipWith (· + ·)) init z,
          p.length = N0 := by
        intro p hp
        obtain ⟨i, hi, rfl⟩ := List.mem_iff_getElem.mp hp
        rw [List.length_zipWith, hlen, hzlen, Nat.min_self] at hi
        rw [List.getElem_zipWith]
        rw [List.length_zipWith]
        have h1 : init[i].length = N0 :=
          hrow _ (List.getElem_mem _)
        have h2 : z[i].length = N0 :=
          hzrow _ (List.getElem_mem _)
        rw [h1, h2, Nat.min_self]
      have hrest := ih (List.zipWith (List.zipWith (· + ·)) init z) L0 N0
        hstep_len hstep_row
        (fun z' hz' => hall z' (List.mem_cons_of_mem z hz'))
      refine ⟨hrest.1, hrest.2.1, ?_⟩
      intro j k hj hk
      rw [List.foldl_cons, hrest.2.2 j k hj hk]
      have hjinit : j < init.length := by omega
      have hjz : j < z.length := by omega
      have hstep_getD : ((List.zipWith (List.zipWith (· + ·)) init z).getD j []).getD k 0
          = (init.getD j []).getD k 0 + (z.getD j []).getD k 0 := by
        rw [zipWith_getD (List.zipWith (· + ·)) init z [] [] [] hjinit hjz]
        have hkp : k < (init.getD j []).length := by
          rw [getD_eq_getElem [] hjinit]
          rw [hrow _ (List.getElem_mem _)]
          exact hk
        have hkz : k < (z.getD j []).length := by
          rw [getD_eq_getElem [] hjz]
          rw [hzrow _ (List.getElem_mem _)]
          exact hk
        rw [zipWith_getD (· + ·) _ _ 0 0 0 hkp hkz]
      rw [hstep_getD, List.map_cons, List.sum_cons]
      ring

/-- The per-party state entering phase 2: the key share vectors s1, s2 and the
phase-1 masking vector y. -/
structure PartyState where
  s1 : List (List ℤ)
  s2 : List (List ℤ)
  y : List (List ℤ)

theorem phase2_coeff_bound {H : List ℕ → List ℕ} {A : List (List (List ℤ))}
    {s1 s2 y W_sum : List (List ℤ)} {message : List ℕ} {timestamp : ℕ}
    {z : List (List ℤ)}
    (hs1len : s1.length = L) (hylen : y.length = L)
    (hyN : ∀ poly ∈ y, poly.length = N)
    (hs1b : ∀ poly ∈ s1, ∀ x ∈ poly, |x| ≤ ((ETA : ℕ) : ℤ))
    (hyb : ∀ poly ∈ y, ∀ x ∈ poly, |x| ≤ ((GAMMA1 >>> 3 : ℕ) : ℤ))
    (hacc : phase2_response H A s1 s2 y W_sum message timestamp = some z) :
    z.length = L ∧ (∀ p ∈ z, p.length = N)
    ∧ ∀ j k, j < L → k < N → ∃ v : ℤ,
        (z.getD j []).getD k 0 ≡ v [ZMOD ((Q : ℕ) : ℤ)] ∧ |v| ≤ 523854 := by
  have hz := phase2_response_some hacc
  subst hz
  set cpoly := derive_challenge H message
    (W_sum.map (fun poly =>
      poly.map (fun c => high_bits c (2 * (GAMMA2 : ℤ)) (Q : ℤ)))) timestamp with hcpoly
  set cs := s1.map (fun s_poly => polymul_rq cpoly s_poly) with hcs
  have hb0 : (GAMMA1 >>> 3 : ℕ) = 523776 := by decide
  have hbound : ((GAMMA1 >>> 3 : ℕ) : ℤ) = 523776 := by rw [hb0]; norm_num
  have heta : ((ETA : ℕ) : ℤ) = 2 := by unfold ETA; norm_num
  have hcslen : cs.length = L := by rw [hcs, List.length_map, hs1len]
  have hzlen : (List.zipWith (fun yj csj => poly_add yj csj (Q : ℤ)) y cs).length
      = L := by
    rw [List.length_zipWith, hylen, hcslen, Nat.min_self]
  refine ⟨hzlen, ?_, ?_⟩
  · intro p hp
    obtain ⟨i, hi, rfl⟩ := List.mem_iff_getElem.mp hp
    have hiy : i < y.length := by
      rw [List.length_zipWith] at hi; omega
    have hics : i < cs.length := by
      rw [List.length_zipWith] at hi; omega
    have his1 : i < s1.length := by omega
    rw [List.getElem_zipWith]
    unfold poly_add
    rw [List.length_zipWith]
    have h1 : y[i].length = N := hyN _ (List.getElem_mem _)
    have h2 : cs[i].length = N := by
      have hmap : cs[i] = polymul_rq cpoly s1[i] :=
        List.getElem_map _
      rw [hmap]
      exact polymul_rq_length _ _
    rw [h1, h2, Nat.min_self]
  · intro j k hj hk
    have hjy : j < y.length := by omega
    have hjcs : j < cs.length := by omega
    have hjs1 : j < s1.length := by omega
    have hzj : ((List.zipWith (fun yj csj => poly_add yj csj (Q : ℤ)) y cs).getD j [])
        = poly_add (y.getD j []) (cs.getD j []) (Q : ℤ) :=
      zipWith_getD _ _ _ [] [] [] hjy hjcs
    have hcsj : cs.getD j [] = polymul_rq cpoly (s1.getD j []) := by
      rw [getD_eq_getElem [] hjcs]
      have hmap : cs[j] = polymul_rq cpoly s1[j] :=
        List.getElem_map _
      rw [hmap, getD_eq_getElem [] hjs1]
    have hyj_len : (y.getD j []).length = N := by
      rw [getD_eq_getElem [] hjy]
      exact hyN _ (List.getElem_mem _)
    have hkcs : k < (polymul_rq cpoly (s1.getD j [])).length := by
      rw [polymul_rq_length]; exact hk
    have hcoeff : ((List.zipWith (fun yj csj => poly_add yj csj (Q : ℤ)) y cs).getD
          j []).getD k 0
        = ((y.getD j []).getD k 0
          + (polymul_rq cpoly (s1.getD j [])).getD k 0) % ((Q : ℕ) : ℤ) := by
      rw [hzj, hcsj]
      unfold poly_add
      exact zipWith_getD _ _ _ 0 0 0 (by omega) hkcs
    refine ⟨(y.getD j []).getD k 0 + polymul_plain cpoly (s1.getD j []) k, ?_, ?_⟩
    · rw [hcoeff]
      refine (Int.emod_emod_of_dvd _ dvd_rfl).trans ?_
      exact Int.ModEq.add (Int.ModEq.refl _) (polymul_rq_getD_modeq _ _ hk)
    · have hy_mem : y.getD j [] ∈ y := by
        rw [getD_eq_getElem [] hjy]
        exact List.getElem_mem _
      have hs1_mem : s1.getD j [] ∈ s1 := by
        rw [getD_eq_getElem [] hjs1]
        exact List.getElem_mem _
      have hyk : |(y.getD j []).getD k 0| ≤ 523776 := by
        have := getD_abs_le (b := y.getD j []) (by rw [hbound]; norm_num)
          (hyb _ hy_mem) k
        omega
      have hsum := challenge_abs_sum_le (H (challenge_input message
        (W_sum.map (fun poly =>
          poly.map (fun c => high_bits c (2 * (GAMMA2 : ℤ)) (Q : ℤ)))) timestamp))
      have htau : ((TAU : ℕ) : ℤ) = 39 := by unfold TAU; norm_num
      have hsum39 : (∑ i in Finset.range N, |cpoly.getD i 0|) ≤ 39 := by
        rw [htau] at hsum
        exact hsum
      have hplain : |polymul_plain cpoly (s1.getD j []) k| ≤ 78 := by
        have hb := polymul_plain_bound (a := cpoly)
          (by rw [heta]; norm_num) (hs1b _ hs1_mem) hk
        have hsnonneg : (0 : ℤ) ≤ ∑ i in Finset.range N, |cpoly.getD i 0| :=
          Finset.sum_nonneg (fun i _ => abs_nonneg _)
        rw [heta] at hb
        nlinarith [hb, hsum39, hsnonneg]
      calc |(y.getD j []).getD k 0 + polymul_plain cpoly (s1.getD j []) k|
          ≤ |(y.getD j []).getD k 0| + |polymul_plain cpoly (s1.getD j []) k| :=
            abs_add _ _
        _ ≤ 523854 := by omega

def N_PARTICIPANTS : ℕ := 5

theorem gamma_beta_val : (GAMMA1 : ℤ) - (BETA : ℤ) = 4189958 := by
  have h1 : GAMMA1 = 4190208 := by decide
  have h2 : BETA = 250 := rfl
  rw [h1, h2]
  norm_num

theorem gamma2_beta_val : (GAMMA2 : ℤ) - (BETA : ℤ) = 1047302 := by
  have h1 : GAMMA2 = 1047552 := by decide
  have h2 : BETA = 250 := rfl
  rw [h1, h2]
  norm_num

theorem forall2_exists_left {α β : Type} {R : α → β → Prop} :
    ∀ {l1 : List α} {l2 : List β}, List.Forall₂ R l1 l2 →
      ∀ b ∈ l2, ∃ a ∈ l1, R a b := by
  intro l1 l2 h
  induction h with
  | nil => intro b hb; cases hb
  | cons hr _ ih =>
      intro b hb
      cases hb with
      | head => exact ⟨_, List.mem_cons_self _ _, hr⟩
      | tail _ hb2 =>
          obtain ⟨a, ha, har⟩ := ih b hb2
          exact ⟨a, List.mem_cons_of_mem _ ha, har⟩

/-- C2: threshold-signature completeness.  For any collection of at least
t = T_THRESHOLD (and at most N_PARTICIPANTS) parties whose key shares s1 are
ETA-bounded and whose masking vectors y are (GAMMA1 >> 3)-bounded with the
shapes produced by keygen/phase1, if every party's phase2_response against the
common W_sum is accepted (returns some z) and the responses are aggregated by
aggregate_responses, then verify_final_signature accepts the aggregate against
the challenge recomputed from the signer-supplied W_sum. -/
theorem threshold_signature_completeness
    (H : List ℕ → List ℕ) (A : List (List (List ℤ))) (T_pub : List (List ℤ))
    (message : List ℕ) (timestamp : ℕ) (W_sum : List (List ℤ))
    (parties : List PartyState) (zs : List (List (List ℤ)))
    (Zsum : List (List ℤ))
    (ht : T_THRESHOLD ≤ parties.length) (hn : parties.length ≤ N_PARTICIPANTS)
    (hshape : ∀ p ∈ parties, p.s1.length = L ∧ p.y.length = L
      ∧ (∀ poly ∈ p.y, poly.length = N)
      ∧ (∀ poly ∈ p.s1, ∀ x ∈ poly, |x| ≤ ((ETA : ℕ) : ℤ))
      ∧ (∀ poly ∈ p.y, ∀ x ∈ poly, |x| ≤ ((GAMMA1 >>> 3 : ℕ) : ℤ)))
    (hacc : List.Forall₂ (fun p z =>
      phase2_response H A p.s1 p.s2 p.y W_sum message timestamp = some z)
      parties zs)
    (hagg : aggregate_responses zs = some Zsum) :
    verify_final_signature H Zsum
      (derive_challenge H message (W_sum.map (fun poly =>
        poly.map (fun c => high_bits c (2 * (GAMMA2 : ℤ)) (Q : ℤ)))) timestamp)
      T_pub A message timestamp (some W_sum) = true := by
  have hzfacts : ∀ z ∈ zs, z.length = L ∧ (∀ p ∈ z, p.length = N)
      ∧ ∀ j k, j < L → k < N → ∃ v : ℤ,
          (z.getD j []).getD k 0 ≡ v [ZMOD ((Q : ℕ) : ℤ)] ∧ |v| ≤ 523854 := by
    intro z hz
    obtain ⟨p, hp, hpe⟩ := forall2_exists_left hacc z hz
    obtain ⟨h1, h2, h3, h4, h5⟩ := hshape p hp
    exact phase2_coeff_bound h1 h2 h3 h4 h5 hpe
  have hlen_eq : parties.length = zs.length := hacc.length_eq
  cases zs with
  | nil =>
      exfalso
      rw [List.length_nil] at hlen_eq
      have hT : T_THRESHOLD = 3 := rfl
      omega
  | cons z0 zrest =>
      have hz0 := hzfacts z0 (List.mem_cons_self z0 zrest)
      have hz0len : z0.length = L := hz0.1
      have hhead : (z0.headD []).length = N := by
        cases z0 with
        | nil =>
            rw [List.length_nil] at hz0len
            exact absurd hz0len (by decide)
        | cons r rs =>
            rw [List.headD_cons]
            exact hz0.2.1 r (List.mem_cons_self r rs)
      unfold aggregate_responses at hagg
      rw [if_neg (by simp)] at hagg
      simp only [List.headD_cons] at hagg
      rw [hz0len, hhead] at hagg
      have hZ : Zsum = (z0 :: zrest).foldl
          (fun acc z => List.zipWith (List.zipWith (· + ·)) acc z)
          (List.replicate L (List.replicate N 0)) :=
        (Option.some_inj.mp hagg).symm
      have hfold := foldl_zipadd_shape_getD (z0 :: zrest)
        (List.replicate L (List.replicate N 0)) L N
        (by simp)
        (by
          intro p hp
          rw [List.eq_of_mem_replicate hp]
          simp)
        (fun z hz => ⟨(hzfacts z hz).1, (hzfacts z hz).2.1⟩)
      have hZlen : Zsum.length = L := by rw [hZ]; exact hfold.1
      have hZrow : ∀ p ∈ Zsum, p.length = N := by rw [hZ]; exact hfold.2.1
      have hinitjk : ∀ j, j < L →
          ((List.replicate L (List.replicate N (0 : ℤ))).getD j [])
            = List.replicate N 0 := by
        intro j hj
        rw [getD_eq_getElem [] (by simpa using hj), List.getElem_replicate]
      have hcoeff : ∀ j k, j < L → k < N →
          |center_mod ((Zsum.getD j []).getD k 0) (Q : ℤ)| ≤ 2619270 := by
        intro j k hj hk
        have hget := hfold.2.2 j k hj hk
        obtain ⟨v, hv, hvb⟩ := sum_bound_modeq (q := ((Q : ℕ) : ℤ)) (B := 523854)
          (fun z hz => (hzfacts z hz).2.2 j k hj hk)
        have h5 : N_PARTICIPANTS = 5 := rfl
        have hlen5 : (z0 :: zrest).length ≤ 5 := by omega
        have hvb2 : |v| ≤ 2619270 := by
          have hcast : ((z0 :: zrest).length : ℤ) * 523854 ≤ 5 * 523854 := by
            have : ((z0 :: zrest).length : ℤ) ≤ 5 := by exact_mod_cast hlen5
            nlinarith
          omega
        have heq : center_mod ((Zsum.getD j []).getD k 0) (Q : ℤ) = v := by
          apply center_mod_eq_of_modeq
          · rw [hZ, hget, hinitjk j hj, getD_replicate_zero, zero_add]
            exact hv
          · omega
        rw [heq]
        exact hvb2
      have hnorm : vec_infinity_norm
          (Zsum.map (fun p => p.map (fun c => center_mod c (Q : ℤ))))
          < (GAMMA1 : ℤ) - (BETA : ℤ) := by
        rw [gamma_beta_val]
        apply vec_infinity_norm_lt (by norm_num)
        intro p hp
        obtain ⟨p0, hp0, rfl⟩ := List.mem_map.mp hp
        apply infinity_norm_lt (by norm_num)
        intro x hx
        obtain ⟨c, hc, rfl⟩ := List.mem_map.mp hx
        obtain ⟨j, hj, rfl⟩ := List.mem_iff_getElem.mp hp0
        obtain ⟨k, hk, rfl⟩ := List.mem_iff_getElem.mp hc
        have hjL : j < L := by omega
        have hrowlen : Zsum[j].length = N := hZrow _ (List.getElem_mem _)
        have hkN : k < N := by omega
        have hgd : Zsum[j][k] = (Zsum.getD j []).getD k 0 := by
          rw [getD_eq_getElem [] hj, getD_eq_getElem 0 hk]
        rw [hgd]
        have := hcoeff j k hjL hkN
        omega
      unfold verify_final_signature
      rw [if_neg (not_le.mpr hnorm)]
      simp

theorem polymul_coeff_zero_right (a : List ℤ) (k : ℕ) :
    polymul_coeff a (List.replicate N 0) k = 0 := by
  unfold polymul_coeff
  apply List.sum_eq_zero
  intro x hx
  obtain ⟨i, hi, rfl⟩ := List.mem_map.mp hx
  apply List.sum_eq_zero
  intro y hy
  obtain ⟨j, hj, rfl⟩ := List.mem_map.mp hy
  rw [getD_replicate_zero]
  simp

theorem polymul_rq_zero_right (a : List ℤ) :
    polymul_rq a (List.replicate N 0) = List.replicate N 0 := by
  unfold polymul_rq
  refine List.eq_replicate_iff.mpr ⟨by simp, ?_⟩
  intro b hb
  obtain ⟨k, hk, rfl⟩ := List.mem_map.mp hb
  rw [polymul_coeff_zero_right]
  simp

theorem phase2_zero_z (c : List ℤ) :
    List.zipWith (fun yj csj => poly_add yj csj (Q : ℤ))
      (List.replicate L (List.replicate N (0 : ℤ)))
      ((List.replicate L (List.replicate N (0 : ℤ))).map
        (fun s_poly => polymul_rq c s_poly))
      = List.replicate L (List.replicate N 0) := by
  rw [List.map_replicate, polymul_rq_zero_right, List.zipWith_replicate']
  have hpa : poly_add (List.replicate N (0 : ℤ)) (List.replicate N 0) (Q : ℤ)
      = List.replicate N 0 := by
    unfold poly_add
    rw [List.zipWith_replicate']
    simp
  rw [hpa]

theorem vec_infinity_norm_zero :
    vec_infinity_norm (List.replicate L (List.replicate N (0 : ℤ))) = 0 := by
  have h1 : ∀ n : ℕ, (List.replicate n (0 : ℤ)).foldl max 0 = 0 := by
    intro n
    induction n with
    | zero => rfl
    | succ m ih =>
        simp only [List.replicate_succ, List.foldl_cons, max_self]
        exact ih
  have h2 : infinity_norm (List.replicate N (0 : ℤ)) = 0 := by
    unfold infinity_norm
    simp only [List.map_replicate, abs_zero]
    exact h1 N
  have h3 : ∀ m : ℕ, (List.replicate m (List.replicate N (0 : ℤ))).foldl
      (fun mx p => max mx (infinity_norm p)) 0 = 0 := by
    intro m
    induction m with
    | zero => rfl
    | succ m ih =>
        simp only [List.replicate_succ, List.foldl_cons, h2, max_self]
        exact ih
  exact h3 L

theorem phase2_response_zero (H : List ℕ → List ℕ) (s2 W : List (List ℤ))
    (message : List ℕ) (timestamp : ℕ) :
    phase2_response H [] (List.replicate L (List.replicate N 0)) s2
      (List.replicate L (List.replicate N 0)) W message timestamp
      = some (List.replicate L (List.replicate N 0)) := by
  unfold phase2_response
  rw [phase2_zero_z]
  have hc0 : center_mod 0 (Q : ℤ) = 0 := by
    unfold center_mod
    rw [Q_cast]
    norm_num
  have hmap1 : (List.replicate L (List.replicate N (0 : ℤ))).map
      (fun p => p.map (fun c => center_mod c (Q : ℤ)))
      = List.replicate L (List.replicate N 0) := by
    rw [List.map_replicate, List.map_replicate, hc0]
  have hvn : vec_infinity_norm
      (List.replicate L (List.replicate N (0 : ℤ))) = 0 := vec_infinity_norm_zero
  have hmv : matrix_vec_mul []
      (List.replicate L (List.replicate N (0 : ℤ))) = [] := rfl
  simp only [hmap1, hvn, gamma_beta_val, hmv, List.zipWith_nil_left,
    List.foldl_nil, gamma2_beta_val]
  rw [if_neg (by norm_num), if_neg (by norm_num)]

/-- The all-zero response vector (shape L x N) used to exercise the
completeness theorem at a concrete input. -/
def zero_vec : List (List ℤ) := List.replicate L (List.replicate N 0)

/-- A party whose key shares and phase-1 mask are all zero. -/
def zero_party : PartyState := ⟨zero_vec, zero_vec, zero_vec⟩

theorem zip_add_zero_vec :
    List.zipWith (List.zipWith (· + ·)) zero_vec zero_vec = zero_vec := by
  unfold zero_vec
  rw [List.zipWith_replicate', List.zipWith_replicate']
  simp

theorem aggregate_zero3 :
    aggregate_responses [zero_vec, zero_vec, zero_vec] = some zero_vec := by
  unfold aggregate_responses
  rw [if_neg (by simp)]
  simp only [List.headD_cons]
  have hlen : zero_vec.length = L := rfl
  have hh2 : zero_vec.headD [] = List.replicate N 0 := rfl
  rw [hlen, hh2, List.length_replicate]
  rw [show List.replicate L (List.replicate N (0 : ℤ)) = zero_vec from rfl]
  simp only [List.foldl_cons, List.foldl_nil, zip_add_zero_vec]

/-- Witness for the completeness theorem: three all-zero parties (exactly the
threshold) against the empty public matrix, empty message, empty W_sum and
timestamp zero; every phase2_response accepts with the all-zero response, the
aggregate is the all-zero vector, and verification succeeds. -/
theorem threshold_signature_completeness_witness :
    verify_final_signature (fun _ => []) zero_vec
      (derive_challenge (fun _ => []) []
        (([] : List (List ℤ)).map (fun poly =>
          poly.map (fun c => high_bits c (2 * (GAMMA2 : ℤ)) (Q : ℤ)))) 0)
      [] [] [] 0 (some []) = true := by
  apply threshold_signature_completeness (fun _ => []) [] [] [] 0 []
    [zero_party, zero_party, zero_party] [zero_vec, zero_vec, zero_vec] zero_vec
  · decide
  · decide
  · intro p hp
    have hp0 : p = zero_party := by
      simp only [List.mem_cons, List.not_mem_nil, or_false] at hp
      rcases hp with rfl | rfl | rfl <;> rfl
    subst hp0
    refine ⟨rfl, rfl, ?_, ?_, ?_⟩
    · intro poly hpoly
      rw [List.eq_of_mem_replicate hpoly, List.length_replicate]
    · intro poly hpoly x hx
      rw [List.eq_of_mem_replicate hpoly] at hx
      rw [List.eq_of_mem_replicate hx]
      simp
    · intro poly hpoly x hx
      rw [List.eq_of_mem_replicate hpoly] at hx
      rw [List.eq_of_mem_replicate hx]
      simp
  · exact List.Forall₂.cons (phase2_response_zero (fun _ => []) zero_vec [] [] 0)
      (List.Forall₂.cons (phase2_response_zero (fun _ => []) zero_vec [] [] 0)
        (List.Forall₂.cons (phase2_response_zero (fun _ => []) zero_vec [] [] 0)
          List.Forall₂.nil))
  · exact aggregate_zero3

/-! ## LatticeSigner.verify (signer.py) and deserialize_share
(reconstructor.py) -/

/-- The coefficient of X^k in the plain convolution np.convolve(a, b);
the sum vanishes beyond the support of the product. -/
def conv_coeff (a b : List ℤ) (k : ℕ) : ℤ :=
  ((List.range (k + 1)).map (fun i => a.getD i 0 * b.getD (k - i) 0)).sum

/-- Embedding of LatticeUtils.polymul: convolution, reduction modulo
X^n + 1 (the source copies the low n convolution slots and subtracts the
tail; both steps equal the signed difference of convolution coefficients,
which are zero beyond the support), then reduction mod q. -/
def LatticeUtils_polymul (a b : List ℤ) (q : ℤ) (n : ℕ) : List ℤ :=
  (List.range n).map (fun k => (conv_coeff a b k - conv_coeff a b (n + k)) % q)

/-- Embedding of LatticeSigner._matrix_vec_mul: mod-q accumulation, the
polynomial length taken from the first vector entry. -/
def LatticeSigner_matrix_vec_mul (M : List (List (List ℤ)))
    (v : List (List ℤ)) (q : ℤ) : List (List ℤ) :=
  M.map (fun row =>
    (List.zipWith (fun mij vj =>
        LatticeUtils_polymul mij vj q (v.headD []).length) row v).foldl
      (fun acc p => List.zipWith (fun x y => (x + y) % q) acc p)
      (List.replicate (v.headD []).length 0))

/-- A signature dict as unpacked by LatticeSigner.verify; a missing key
(None field) makes the unpacking raise KeyError.  The hex-encoded hash is
kept as its byte list. -/
structure LatticeSignature where
  z : Option (List (List ℤ))
  w : Option (List (List ℤ))
  c_hash : Option (List ℕ)

/-- The public key dict used by LatticeSigner.verify. -/
structure LatticePk where
  public_seed : List ℕ
  t : List (List ℤ)

/-- The try-block of LatticeSigner.verify as an explicit Except computation:
an error value is a raised exception (here the KeyError from unpacking a
missing signature field), an ok value a normal return.  The external library
calls are passed in as functions: sha256 for hashlib.sha256, wjson for the
json encoding of w, hashToPoly for the numpy-seeded _hash_to_poly, genMatrix
for the SHAKE-128 expansion of the public seed. -/
def LatticeSigner_verify_body (sha256 : List ℕ → List ℕ)
    (wjson : List (List ℤ) → List ℕ) (hashToPoly : List ℕ → List ℤ)
    (genMatrix : List ℕ → List (List (List ℤ)))
    (pk : LatticePk) (message : List ℕ) (signature : LatticeSignature) :
    Except String Bool :=
  match signature.z with
  | none => Except.error "KeyError: z"
  | some z =>
  match signature.w with
  | none => Except.error "KeyError: w"
  | some w =>
  match signature.c_hash with
  | none => Except.error "KeyError: c_hash"
  | some c_hash =>
  if sha256 (message ++ wjson w) ≠ c_hash then Except.ok false
  else
    let A := genMatrix pk.public_seed
    let c_poly := hashToPoly (sha256 (message ++ wjson w))
    let Az := LatticeSigner_matrix_vec_mul A z (Q : ℤ)
    let ct := pk.t.map (fun t_poly => LatticeUtils_polymul c_poly t_poly (Q : ℤ) N)
    let V := List.zipWith (List.zipWith (fun x y => (x - y) % (Q : ℤ))) Az ct
    let expected := w.map (fun poly => poly.map (fun c => c * (2 * (GAMMA2 : ℤ))))
    let diff := (List.zipWith (List.zipWith (fun x y => (x - y) % (Q : ℤ))) V
      expected).map (fun poly => poly.map (fun d =>
        if d ≤ (Q : ℤ) / 2 then d else d - (Q : ℤ)))
    Except.ok (decide (vec_infinity_norm diff
      < (BETA : ℤ) + (2 * (GAMMA2 : ℤ)) / 2 + 500))

/-- Embedding of LatticeSigner.verify: the catch-all except clause prints the
exception to the console and returns the plain Boolean False. -/
def LatticeSigner_verify (sha256 : List ℕ → List ℕ)
    (wjson : List (List ℤ) → List ℕ) (hashToPoly : List ℕ → List ℤ)
    (genMatrix : List ℕ → List (List (List ℤ)))
    (pk : LatticePk) (message : List ℕ) (signature : LatticeSignature) : Bool :=
  match LatticeSigner_verify_body sha256 wjson hashToPoly genMatrix pk message
      signature with
  | Except.ok b => b
  | Except.error _ => false

/-- Embedding of ImageCRTReconstructor.deserialize_share: pickle.loads is the
external deserializer (raising modelled as Except.error); the bare except
clause maps any raised exception to None. -/
def deserialize_share {α : Type} (pickleLoads : List ℕ → Except String α)
    (share_bytes : List ℕ) : Option α :=
  match pickleLoads share_bytes with
  | Except.ok v => some v
  | Except.error _ => none

/-- Counterexample to C9: a signature dict without the z entry makes the
verify body raise KeyError, yet LatticeSigner.verify returns the plain
Boolean false (indistinguishable from a failed check); and a share whose
unpickling raises is mapped to None by deserialize_share, the raised message
discarded in both cases. -/
theorem error_swallowing_counterexample :
    LatticeSigner_verify (fun _ => []) (fun _ => []) (fun _ => []) (fun _ => [])
        ⟨[], []⟩ [] ⟨none, none, none⟩ = false
    ∧ LatticeSigner_verify_body (fun _ => []) (fun _ => []) (fun _ => [])
        (fun _ => []) ⟨[], []⟩ [] ⟨none, none, none⟩
        = Except.error "KeyError: z"
    ∧ deserialize_share (fun _ => Except.error "unpickling error") []
        = (none : Option (List ℕ)) :=
  ⟨rfl, rfl, rfl⟩

/-- C9 (amended): both core catch-alls swallow every internal error: whenever
the verify body raises, LatticeSigner.verify returns the plain Boolean false,
and whenever the deserializer raises, deserialize_share returns None; the
raised reason is discarded in both cases. -/
theorem error_swallowing_amended (sha256 : List ℕ → List ℕ)
    (wjson : List (List ℤ) → List ℕ) (hashToPoly : List ℕ → List ℤ)
    (genMatrix : List ℕ → List (List (List ℤ)))
    (pk : LatticePk) (message : List ℕ) (signature : LatticeSignature)
    {α : Type} (pickleLoads : List ℕ → Except String α) (share_bytes : List ℕ) :
    (∀ e, LatticeSigner_verify_body sha256 wjson hashToPoly genMatrix pk
        message signature = Except.error e →
      LatticeSigner_verify sha256 wjson hashToPoly genMatrix pk message
        signature = false)
    ∧ (∀ e, pickleLoads share_bytes = Except.error e →
      deserialize_share pickleLoads share_bytes = none) := by
  constructor
  · intro e he
    unfold LatticeSigner_verify
    rw [he]
  · intro e he
    unfold deserialize_share
    rw [he]

/-- Witness: the amended swallowing behaviour at the concrete failing inputs
of the counterexample. -/
theorem error_swallowing_amended_witness :
    LatticeSigner_verify (fun _ => []) (fun _ => []) (fun _ => []) (fun _ => [])
        ⟨[], []⟩ [] ⟨none, none, none⟩ = false
    ∧ deserialize_share (fun _ => (Except.error "bad" : Except String (List ℕ)))
        [] = none :=
  ⟨(error_swallowing_amended (fun _ => []) (fun _ => []) (fun _ => [])
      (fun _ => []) ⟨[], []⟩ [] ⟨none, none, none⟩
      (fun _ => (Except.error "bad" : Except String (List ℕ))) []).1
      "KeyError: z" rfl,
   (error_swallowing_amended (fun _ => []) (fun _ => []) (fun _ => [])
      (fun _ => []) ⟨[], []⟩ [] ⟨none, none, none⟩
      (fun _ => (Except.error "bad" : Except String (List ℕ))) []).2
      "bad" rfl⟩

end QSP
